import Mathlib

/-!
Shallow embedding of the PaperLink backend core
(`backend/app/graph_builder.py`, `backend/app/embedding.py`,
`backend/app/rag.py`) and proofs about the frozen claims.

Graphs model `networkx.Graph` as used by the source: insertion-ordered
node and edge association lists, at most one edge per unordered pair,
adjacency iteration in edge-insertion order.  Python floats are modelled
as rationals, Python dict/set cardinalities via `List.dedup`.
-/

set_option autoImplicit false

namespace PaperLink

/-- Node attribute dict: `label` and `type` entries (absent = `none`),
as read by `G.nodes[n].get('label')` / `.get('type')`. -/
structure NodeData where
  label : Option String
  type : Option String
deriving DecidableEq, Repr

/-- Edge attribute dict: `relation` entry (absent = `none`) and `weight`. -/
structure EdgeData where
  relation : Option String
  weight : Rat
deriving DecidableEq, Repr

/-- `networkx.Graph` state: nodes and edges in insertion order.
Each edge is stored once, under the orientation it was first added with. -/
structure Graph where
  nodes : List (String × NodeData)
  edges : List (String × String × EdgeData)
deriving DecidableEq, Repr

deriving instance DecidableEq for Except

def emptyGraph : Graph := ⟨[], []⟩

def hasNode (g : Graph) (n : String) : Bool :=
  g.nodes.any (fun p => p.1 == n)

/-- `G.add_node(n, **attrs)`: update attributes in place if the node
exists (insertion position kept), else append. -/
def addNode (g : Graph) (n : String) (d : NodeData) : Graph :=
  if hasNode g n then
    { g with nodes := g.nodes.map (fun p => if p.1 == n then (n, d) else p) }
  else
    { g with nodes := g.nodes ++ [(n, d)] }

def nodeData (g : Graph) (n : String) : Option NodeData :=
  (g.nodes.find? (fun p => p.1 == n)).map (·.2)

/-- `G.nodes[n].get('type')`. -/
def nodeType (g : Graph) (n : String) : Option String :=
  (nodeData g n).bind (·.type)

/-- Whether the stored endpoints `(s, t)` denote the unordered pair `(a, b)`. -/
def pairMatches (s t a b : String) : Bool :=
  (s == a && t == b) || (s == b && t == a)

/-- `G.has_edge(a, b)` (symmetric). -/
def hasEdge (g : Graph) (a b : String) : Bool :=
  g.edges.any (fun e => pairMatches e.1 e.2.1 a b)

/-- The attribute dict of the unique edge on the unordered pair `(a, b)`,
if present. -/
def edgeData (g : Graph) (a b : String) : Option EdgeData :=
  (g.edges.find? (fun e => pairMatches e.1 e.2.1 a b)).map (·.2.2)

/-- `G[a][b]['weight']` (0 as an out-of-model default when absent). -/
def weightOf (g : Graph) (a b : String) : Rat :=
  ((edgeData g a b).map (·.weight)).getD 0

/-- `G[a][b].get('relation')`. -/
def relationOf (g : Graph) (a b : String) : Option String :=
  (edgeData g a b).bind (·.relation)

/-- Number of stored edges on the unordered pair `(a, b)`
(0 or 1 in any reachable `networkx` state). -/
def countPair (g : Graph) (a b : String) : Nat :=
  (g.edges.filter (fun e => pairMatches e.1 e.2.1 a b)).length

/-- Add `w` to the weight of the first (unique) edge on pair `(s, t)`. -/
def bumpFirst : List (String × String × EdgeData) → String → String → Rat →
    List (String × String × EdgeData)
  | [], _, _, _ => []
  | e :: es, s, t, w =>
    if pairMatches e.1 e.2.1 s t then
      (e.1, e.2.1, ⟨e.2.2.relation, e.2.2.weight + w⟩) :: es
    else
      e :: bumpFirst es s t w

/-- Overwrite the attribute dict of the first (unique) edge on pair `(s, t)`. -/
def setFirst : List (String × String × EdgeData) → String → String → EdgeData →
    List (String × String × EdgeData)
  | [], _, _, _ => []
  | e :: es, s, t, d =>
    if pairMatches e.1 e.2.1 s t then
      (e.1, e.2.1, d) :: es
    else
      e :: setFirst es s t d

/-- Create a node with an empty attribute dict if it is missing
(`networkx` does this for edge endpoints). -/
def ensureNode (g : Graph) (n : String) : Graph :=
  if hasNode g n then g else { g with nodes := g.nodes ++ [(n, ⟨none, none⟩)] }

/-- Raw `G.add_edge(s, t, **attrs)`: silently creates missing endpoint
nodes (with empty attribute dicts), then overwrites the attributes of an
existing edge on the unordered pair or appends a new edge. -/
def nxAddEdge (g : Graph) (s t : String) (d : EdgeData) : Graph :=
  let g2 := ensureNode (ensureNode g s) t
  if hasEdge g2 s t then
    { g2 with edges := setFirst g2.edges s t d }
  else
    { g2 with edges := g2.edges ++ [(s, t, d)] }

/-- `KnowledgeGraph._add_edge`: accumulate weight onto an existing edge
of the unordered pair, else add a fresh edge carrying the relation. -/
def add_edge (g : Graph) (s t : String) (relation : String) (weight : Rat) : Graph :=
  if hasEdge g s t then
    { g with edges := bumpFirst g.edges s t weight }
  else
    nxAddEdge g s t ⟨some relation, weight⟩

/-- The adjacency list of an EXISTING node `v`, in edge-insertion order
(when edge `(s, t)` is first added, `t` is appended to `adj[s]` and
`s` to `adj[t]`; later weight updates do not reorder).  This is what
`G.neighbors(v)` yields when `v` is a node of the graph; for a missing
node `G.neighbors` raises `NetworkXError` instead, which the callers
below model with an explicit `hasNode` guard and an `.error` result. -/
def adjacency (g : Graph) (v : String) : List String :=
  g.edges.filterMap (fun e =>
    if e.1 == v then some e.2.1
    else if e.2.1 == v then some e.1
    else none)

/-- One serialized node record of the persisted graph snapshot. -/
structure SnapNode where
  id : String
  label : Option String
  type : Option String
deriving DecidableEq, Repr

/-- One serialized edge record of the persisted graph snapshot
(`weight` may be absent in a hand-made file; `load` defaults it to 1). -/
structure SnapEdge where
  source : String
  target : String
  relation : Option String
  weight : Option Rat
deriving DecidableEq, Repr

/-- The persisted / transmitted graph shape: flat node and edge lists. -/
structure GraphSnapshot where
  nodes : List SnapNode
  edges : List SnapEdge
deriving DecidableEq, Repr

/-- `KnowledgeGraph._persist`: serialize nodes and edges.  (The JSON
encoding itself is abstracted as faithful; `networkx` reports each edge
exactly once.) -/
def persistSnapshot (g : Graph) : GraphSnapshot :=
  { nodes := g.nodes.map (fun p => ⟨p.1, p.2.label, p.2.type⟩),
    edges := g.edges.map (fun e => ⟨e.1, e.2.1, e.2.2.relation, some e.2.2.weight⟩) }

/-- Body of `KnowledgeGraph.load` on well-formed data: rebuild the graph
from the flat lists, defaulting an absent edge weight to 1. -/
def loadFromSnapshot (d : GraphSnapshot) : Graph :=
  let g := d.nodes.foldl (fun g n => addNode g n.id ⟨n.label, n.type⟩) emptyGraph
  d.edges.foldl (fun g e => nxAddEdge g e.source e.target ⟨e.relation, e.weight.getD 1⟩) g

/-- State of a persisted snapshot file: missing, present but not valid
JSON (parsing raises), or present and well formed. -/
inductive FileState (α : Type) where
  | absent : FileState α
  | malformed (msg : String) : FileState α
  | wellFormed (data : α) : FileState α

/-- `KnowledgeGraph.load` as observed by the caller: an absent file
returns early keeping the instance's current graph; a malformed file
makes `json.load` raise (uncaught); otherwise the graph is rebuilt. -/
def kgLoad (current : Graph) (file : FileState GraphSnapshot) : Except String Graph :=
  match file with
  | .absent => .ok current
  | .malformed msg => .error msg
  | .wellFormed d => .ok (loadFromSnapshot d)

/-- `KnowledgeGraph.subgraph_for_path(path)`: the induced subgraph over
exactly the listed node ids, in snapshot shape. -/
def subgraph_for_path (g : Graph) (path : List String) : GraphSnapshot :=
  { nodes := (g.nodes.filter (fun p => path.contains p.1)).map
      (fun p => ⟨p.1, p.2.label, p.2.type⟩),
    edges := (g.edges.filter (fun e => path.contains e.1 && path.contains e.2.1)).map
      (fun e => ⟨e.1, e.2.1, e.2.2.relation, some e.2.2.weight⟩) }

/-! ### `KnowledgeGraph.build` (graph_builder.py) -/

/-- A paper record as consumed by `build` (`paper_id`, `title`). -/
structure Paper where
  paper_id : String
  title : String
deriving DecidableEq, Repr

/-- A chunk record (`paper_id`, `title`, `chunk_id`, `text`), shared by
the index metadata and the graph builder. -/
structure Chunk where
  paper_id : String
  title : String
  chunk_id : String
  text : String
deriving DecidableEq, Repr, Inhabited

/-- `" ".join(c['text'] for c in p_chunks[:10])` over the paper's chunks. -/
def paperText (chunks : List Chunk) (pid : String) : String :=
  String.intercalate " "
    (((chunks.filter (fun c => c.paper_id == pid)).take 10).map (·.text))

/-- `paper_phrases` as a dict built by repeated assignment: looking up a
key returns the last value written for it, `[]` when absent
(`paper_phrases.get(p, [])`). -/
def phraseLookup (phr : List (String × List String)) (pid : String) : List String :=
  (((phr.filter (fun q => q.1 == pid)).getLast?).map (·.2)).getD []

/-- `len(set(l1) & set(l2))`: the number of distinct elements of `l1`
also occurring in `l2`. -/
def interSize (l1 l2 : List String) : Nat :=
  (l1.dedup.filter (fun x => l2.contains x)).length

/-- One iteration of the paper-pair loop: add/accumulate a `related`
edge when the two keyphrase sets intersect. -/
def relatedStep (phr : List (String × List String)) (g : Graph) (p1 p2 : String) : Graph :=
  let n := interSize (phraseLookup phr p1) (phraseLookup phr p2)
  if n ≠ 0 then add_edge g p1 p2 "related" (n : Rat) else g

/-- The `for i ... for j in range(i+1, ...)` double loop over papers. -/
def relatedPhase (phr : List (String × List String)) (g : Graph) : List Paper → Graph
  | [] => g
  | p :: rest =>
      relatedPhase phr
        (rest.foldl (fun g q => relatedStep phr g p.paper_id q.paper_id) g) rest

/-- Per-paper body of the keyphrase loop: for each extracted keyphrase,
ensure the concept node exists and accumulate a `mentions` edge. -/
def mentionsStep (g : Graph) (pid : String) (kw : String) : Graph :=
  let nid := "concept::" ++ kw.toLower
  let g1 := if hasNode g nid then g else addNode g nid ⟨some kw, some "concept"⟩
  add_edge g1 pid nid "mentions" 1

/-- The keyphrase loop of `build`: for each paper (in order) and each
of its extracted keyphrases, run `mentionsStep`. -/
def mentionsPhase (phr : List (String × List String)) (g : Graph) : Graph :=
  phr.foldl (fun g pk => pk.2.foldl (fun g kw => mentionsStep g pk.1 kw) g) g

/-- `KnowledgeGraph.build(papers, chunks)`, with the external `yake`
keyphrase extractor abstracted as `extract`: add paper nodes, then per
paper the concept nodes and `mentions` edges, then the pairwise
`related` edges.  (The trailing `_persist()` call is modelled separately
by `persistSnapshot`.) -/
def buildGraph (extract : String → List String) (papers : List Paper)
    (chunks : List Chunk) : Graph :=
  let g0 := papers.foldl (fun g p => addNode g p.paper_id ⟨some p.title, some "paper"⟩)
    emptyGraph
  let phr : List (String × List String) :=
    papers.map (fun p => (p.paper_id, extract (paperText chunks p.paper_id)))
  relatedPhase phr (mentionsPhase phr g0) papers

/-! ### `VectorIndex` (embedding.py), sparse (tfidf) backend -/

/-- Dot product of two equal-length vectors (`row @ q_vec`). -/
def dot (u v : List Rat) : Rat :=
  (List.zipWith (· * ·) u v).sum

/-- Sparse-backend index state after `build`/lazy refit: chunk metadata
and the parallel matrix of stored (projected, normalized) vectors. -/
structure SparseIndex where
  meta : List Chunk
  embeddings : List (List Rat)
deriving Repr

/-- `(self.embeddings @ q_vec.T).ravel()`: one similarity per stored row. -/
def simsOf (m : SparseIndex) (qvec : List Rat) : List Rat :=
  m.embeddings.map (fun row => dot row qvec)

/-- The documented contract of `np.argsort(-sims)`: some permutation of
all row indices along which the similarities are non-increasing.  The
default `kind='quicksort'` does not promise a tie order. -/
def IsArgsortDesc (sims : List Rat) (ord : List Nat) : Prop :=
  ord.Perm (List.range sims.length) ∧
    ord.Pairwise (fun i j => sims.getD j 0 ≤ sims.getD i 0)

/-- `VectorIndex.query(text, k)`, sparse path, for loaded state `m` and
query vector `qvec`, parameterized by the index order `ord` that
`np.argsort(-sims)` returned: empty metadata short-circuits to `[]`,
`k` is clamped to `len(meta)`, and the first `k` indices of `ord` are
mapped to `(chunk, similarity)` pairs. -/
def queryWith (m : SparseIndex) (qvec : List Rat) (ord : List Nat) (k : Nat) :
    List (Chunk × Rat) :=
  if m.meta.isEmpty then []
  else
    let k := min k m.meta.length
    let sims := simsOf m qvec
    (ord.take k).map (fun i => (m.meta.getD i default, sims.getD i 0))

/-- `VectorIndex.load` restricted to the chunk metadata file: an absent
file keeps the current (empty) metadata, a malformed file makes
`json.load` raise (uncaught), a well-formed file replaces it. -/
def viLoadMeta (current : List Chunk) (file : FileState (List Chunk)) :
    Except String (List Chunk) :=
  match file with
  | .absent => .ok current
  | .malformed msg => .error msg
  | .wellFormed d => .ok d

/-! ### `answer_query` (rag.py) -/

/-- Python string slicing `s[:n]`: the first `n` characters. -/
def strTake (s : String) (n : Nat) : String := ⟨s.data.take n⟩

/-- Outcome of the one bounded HTTP attempt inside `_call_groq`:
either the extracted, stripped message content, or the exception text. -/
inductive LlmOutcome where
  | ok (content : String) : LlmOutcome
  | fail (err : String) : LlmOutcome

/-- `_call_groq(prompt)` in the configured case, as a function of the
attempt's outcome: a successful call returns the (already stripped)
content, with the empty string replaced by a placeholder; any exception
is caught and rendered as a failure note plus the first 500 characters
of the prompt. -/
def call_groq (prompt : String) (outcome : LlmOutcome) : String :=
  match outcome with
  | .ok content => if content = "" then "(Empty LLM response)" else content
  | .fail e => "(LLM call failed: " ++ e ++ ")\n" ++ strTake prompt 500

/-- One source record of `answer_query`'s return value. -/
structure Source where
  paper_id : String
  title : String
  chunk_id : String
  score : Rat
  text : String
deriving DecidableEq, Repr

/-- The source records built from the retrieval results
(text excerpt capped at 1200 characters). -/
def sourcesOf (retrieved : List (Chunk × Rat)) : List Source :=
  retrieved.map (fun ms =>
    ⟨ms.1.paper_id, ms.1.title, ms.1.chunk_id, ms.2, strTake ms.1.text 1200⟩)

/-- `paper_ids_ordered`: distinct paper ids in first-appearance order. -/
def paperIdsOrdered (retrieved : List (Chunk × Rat)) : List String :=
  retrieved.foldl
    (fun acc ms => if acc.contains ms.1.paper_id then acc else acc ++ [ms.1.paper_id]) []

/-- The running best bridge of the neighbor loop: fold over
`G.neighbors(last)` keeping `(best_mid, best_w)`, starting from
`(None, 0.0)` and replacing only on a strict weight-sum improvement. -/
def bestBridgeFold (g : Graph) (last pid : String) : Option String × Rat :=
  (adjacency g last).foldl
    (fun best nb =>
      if nodeType g nb == some "concept" && hasEdge g nb pid then
        let w := weightOf g last nb + weightOf g nb pid
        if best.2 < w then (some nb, w) else best
      else best)
    (none, 0)

/-- The bridge the code commits to: `if best_mid:` is Python truthiness,
so an empty-string node id is treated like `None`. -/
def bridgeChosen (g : Graph) (last pid : String) : Option String :=
  match (bestBridgeFold g last pid).1 with
  | some m => if m = "" then none else some m
  | none => none

/-- `for n in ns: if n not in path: path.append(n)`. -/
def appendNew (path : List String) (ns : List String) : List String :=
  ns.foldl (fun p n => if p.contains n then p else p ++ [n]) path

/-- One iteration of the path-stitching loop for the next stop `pid`.
`G.has_edge` is total, but in the else branch the code iterates
`G.neighbors(last)`, which raises `NetworkXError` (message
`"The node <last> is not in the graph."`) when `last` is not a node of
the graph — a reachable state, since the vector index and the graph
are built by separate endpoints.  The `hasNode` guard models exactly
that raise; when `last` is a node, `G.neighbors(last)` yields
`adjacency g last`, over which `bridgeChosen` runs the loop. -/
def stitchStep (g : Graph) (path : List String) (pid : String) :
    Except String (List String) :=
  let last := path.getLastD ""
  if hasEdge g last pid then
    .ok (path ++ ([last, pid].filter (fun n => !path.contains n)))
  else if hasNode g last then
    match bridgeChosen g last pid with
    | some mid => .ok (appendNew path [last, mid, pid])
    | none => .ok (if path.contains pid then path else path ++ [pid])
  else
    .error ("The node " ++ last ++ " is not in the graph.")

/-- The whole stitching loop: start at the first stop, then fold
`stitchStep` over the remaining stops, propagating a `NetworkXError`
raised by any step. -/
def stitchPath (g : Graph) (stops : List String) : Except String (List String) :=
  match stops with
  | [] => .ok []
  | first :: rest => rest.foldlM (stitchStep g) [first]

/-- `len({s['title'] for s in sources})`. -/
def titlesCount (sources : List Source) : Nat :=
  (sources.map (·.title)).dedup.length

/-- The always-computable fallback line built before any external call. -/
def heuristicText (sources : List Source) (path : List String) : String :=
  "Retrieved " ++ toString sources.length ++ " chunks across "
    ++ toString (titlesCount sources)
    ++ " papers. Traversal order: " ++ String.intercalate " -> " path
    ++ ". Shared concepts form edges; see subgraph for details."

/-- The synthesis prompt assembled for the external call. -/
def promptOf (question : String) (sources : List Source) (path : List String) : String :=
  let paper_titles := String.intercalate "\n"
    ((sources.take 5).map (fun s => "- **" ++ s.title ++ "** (ID: " ++ s.paper_id ++ ")"))
  let joined_sources := String.intercalate "\n\n"
    (sources.enum.map (fun is =>
      "### Source [" ++ toString (is.1 + 1) ++ "] - " ++ is.2.title ++ "\n" ++ is.2.text))
  "**Research Question:** " ++ question
    ++ "\n\n**Analysis Context:**\n- Papers Analyzed: " ++ toString (titlesCount sources)
    ++ "\n- Sources Retrieved: " ++ toString sources.length
    ++ "\n- Knowledge Graph Traversal: " ++ String.intercalate " → " (path.take 5)
    ++ (if 5 < path.length then "..." else "")
    ++ "\n\n**Papers in Analysis:**\n" ++ paper_titles
    ++ "\n\n**Task:** Provide a comprehensive, well-structured comparative synthesis following the format guidelines. Use markdown formatting extensively with headers, bold text for key concepts, bullet points, and clear sections."
    ++ "\n\n**Retrieved Content:**\n" ++ strTake joined_sources 7000
    ++ "\n\n**Remember:** Use professional academic writing style with proper markdown formatting, clear structure, and highlighted key terms."

/-- Zero-padded three-digit decimal string for `n < 1000`. -/
def pad3 (n : Nat) : String :=
  if n < 10 then "00" ++ toString n
  else if n < 100 then "0" ++ toString n
  else toString n

/-- Model of the Python format `f"{q:.3f}"` on a rational score:
`⌊q * 1000 + 1/2⌋ = (2000 * num + den) fdiv (2 * den)` thousandths,
rendered with three decimals. -/
def fmt3 (q : Rat) : String :=
  let m : Int := (2000 * q.num + (q.den : Int)).fdiv (2 * (q.den : Int))
  (if m < 0 then "-" else "") ++ toString (m.natAbs / 1000) ++ "." ++ pad3 (m.natAbs % 1000)

/-- The fixed-format metadata footer appended after the external call. -/
def metadataFooter (sources : List Source) (path : List String) : String :=
  "\n\n---\n\n*📊 Analysis Metadata:*\n- Sources: " ++ toString sources.length
    ++ " chunks from " ++ toString (titlesCount sources)
    ++ " paper(s)\n- Graph Path: " ++ String.intercalate " → " (path.take 8)
    ++ (if 8 < path.length then "..." else "")
    ++ "\n- Retrieval Score Range: "
    ++ fmt3 (((sources.head?).map (·.score)).getD 0) ++ " - "
    ++ fmt3 (((sources.getLast?).map (·.score)).getD 0)

/-- The fixed message returned when retrieval produced no sources. -/
def noContentMsg : String :=
  "I couldn't find relevant content. Please upload papers and rebuild the graph."

/-- The tuple `answer_query` returns. -/
structure AnswerResult where
  answer : String
  sources : List Source
  path : List String
  subgraph : GraphSnapshot
deriving Repr

/-- `answer_query(question, k)` downstream of retrieval: `g` is the
loaded knowledge graph, `retrieved` the result of `index.query`, and
`llm` describes the external synthesis capability (`none` when
`GROQ_API_KEY` is unset, otherwise the outcome the single bounded call
would have).  The stitching loop runs before the synthesis branch and
may raise `NetworkXError`, which propagates to the caller; everything
after the loop is total. -/
def answer_query (g : Graph) (question : String) (retrieved : List (Chunk × Rat))
    (llm : Option LlmOutcome) : Except String AnswerResult :=
  let sources := sourcesOf retrieved
  match stitchPath g (paperIdsOrdered retrieved) with
  | .error e => .error e
  | .ok path =>
    let answer :=
      if sources.isEmpty then noContentMsg
      else
        match llm with
        | some outcome =>
            call_groq (promptOf question sources path) outcome ++ metadataFooter sources path
        | none =>
            "## ⚠️ LLM Not Configured\n\n" ++ heuristicText sources path
              ++ "\n\n*Set GROQ_API_KEY environment variable to enable AI-powered synthesis.*"
    let subgraph := if path.isEmpty then ⟨[], []⟩ else subgraph_for_path g path
    .ok ⟨answer, sources, path, subgraph⟩

/-- `needle` occurs as a contiguous substring of `hay`. -/
def occursIn (needle hay : String) : Prop :=
  ∃ l r : List Char, hay.data = l ++ needle.data ++ r

/-- Whether `needle` is an initial segment of `hay`. -/
def subAt : List Char → List Char → Bool
  | [], _ => true
  | _ :: _, [] => false
  | c :: cs, d :: ds => c == d && subAt cs ds

/-- Executable contiguous-substring check. -/
def containsSub (needle : List Char) : List Char → Bool
  | [] => subAt needle []
  | c :: cs => subAt needle (c :: cs) || containsSub needle cs

/-- The bridge-candidate list the neighbor loop filters down to:
concept-typed neighbors of `last` that also have an edge to `pid`,
in graph iteration order. -/
def candidates (g : Graph) (last pid : String) : List String :=
  (adjacency g last).filter (fun nb => nodeType g nb == some "concept" && hasEdge g nb pid)

/-- The combined weight the bridge search maximizes. -/
def bridgeScore (g : Graph) (last pid nb : String) : Rat :=
  weightOf g last nb + weightOf g nb pid

/-! ### Lemmas: the unordered-pair edge store -/

theorem pairMatches_eqv {s t a b : String} (h : pairMatches s t a b = true) :
    ∀ x y, pairMatches x y s t = pairMatches x y a b := by
  intro x y
  simp only [pairMatches, Bool.or_eq_true, Bool.and_eq_true, beq_iff_eq] at h
  rcases h with ⟨hs, ht⟩ | ⟨hs, ht⟩ <;> subst hs <;> subst ht
  · rfl
  · simp [pairMatches, Bool.or_comm]

theorem pairMatches_trans {x y s t a b : String} (h1 : pairMatches x y s t = true)
    (h2 : pairMatches s t a b = true) : pairMatches x y a b = true := by
  rw [← pairMatches_eqv h2]; exact h1

theorem pairMatches_refl (s t : String) : pairMatches s t s t = true := by
  simp [pairMatches]

theorem pairMatches_swap (x y a b : String) : pairMatches x y a b = pairMatches a b x y := by
  simp only [pairMatches]
  rw [Bool.eq_iff_iff]
  simp only [Bool.or_eq_true, Bool.and_eq_true, beq_iff_eq]
  constructor <;> rintro (⟨h1, h2⟩ | ⟨h1, h2⟩) <;> subst h1 <;> subst h2 <;> simp

theorem find?_ext {α : Type} {p q : α → Bool} (l : List α) (h : ∀ x ∈ l, p x = q x) :
    l.find? p = l.find? q := by
  induction l with
  | nil => rfl
  | cons x xs ih =>
    have hx := h x (List.mem_cons_self x xs)
    rw [List.find?_cons, List.find?_cons, hx]
    cases q x
    · exact ih fun y hy => h y (List.mem_cons_of_mem x hy)
    · rfl

theorem any_ext {α : Type} {p q : α → Bool} (l : List α) (h : ∀ x ∈ l, p x = q x) :
    l.any p = l.any q := by
  induction l with
  | nil => rfl
  | cons x xs ih =>
    simp only [List.any_cons]
    rw [h x (List.mem_cons_self x xs), ih fun y hy => h y (List.mem_cons_of_mem x hy)]

theorem hasEdge_eqv {g : Graph} {s t a b : String} (h : pairMatches s t a b = true) :
    hasEdge g s t = hasEdge g a b :=
  any_ext _ fun e _ => pairMatches_eqv h e.1 e.2.1

theorem edgeData_eqv {g : Graph} {s t a b : String} (h : pairMatches s t a b = true) :
    edgeData g s t = edgeData g a b := by
  unfold edgeData
  rw [find?_ext _ fun e _ => pairMatches_eqv h e.1 e.2.1]

theorem countPair_eqv {g : Graph} {s t a b : String} (h : pairMatches s t a b = true) :
    countPair g s t = countPair g a b := by
  unfold countPair
  congr 1
  exact List.filter_congr fun e _ => pairMatches_eqv h e.1 e.2.1

theorem hasEdge_eq_false_iff {g : Graph} {a b : String} :
    hasEdge g a b = false ↔ ∀ e ∈ g.edges, pairMatches e.1 e.2.1 a b = false := by
  simp [hasEdge, List.any_eq_false]

theorem countPair_eq_zero_iff {g : Graph} {a b : String} :
    countPair g a b = 0 ↔ hasEdge g a b = false := by
  simp [countPair, hasEdge, List.length_eq_zero, List.filter_eq_nil_iff, List.any_eq_false]

theorem edgeData_eq_none_of_not_has {g : Graph} {a b : String} (h : hasEdge g a b = false) :
    edgeData g a b = none := by
  unfold edgeData
  rw [List.find?_eq_none.2 (by simpa using hasEdge_eq_false_iff.1 h)]
  rfl

/-! ### Lemmas: effect of `add_edge` -/

theorem ensureNode_edges (g : Graph) (n : String) : (ensureNode g n).edges = g.edges := by
  unfold ensureNode; split <;> rfl

theorem hasEdge_ensureNode (g : Graph) (n a b : String) :
    hasEdge (ensureNode g n) a b = hasEdge g a b := by
  unfold hasEdge; rw [ensureNode_edges]

theorem ensureNode_nodes_of_has {g : Graph} {n : String} (h : hasNode g n = true) :
    (ensureNode g n).nodes = g.nodes := by
  unfold ensureNode; rw [if_pos h]

theorem hasNode_ensureNode_of_has {g : Graph} {n m : String} (h : hasNode g m = true) :
    hasNode (ensureNode g n) m = true := by
  unfold ensureNode; split
  · exact h
  · simp only [hasNode, List.any_append, Bool.or_eq_true]
    exact Or.inl (by simpa [hasNode] using h)

theorem nxAddEdge_edges (g : Graph) (s t : String) (d : EdgeData) :
    (nxAddEdge g s t d).edges =
      if hasEdge g s t then setFirst g.edges s t d else g.edges ++ [(s, t, d)] := by
  unfold nxAddEdge
  simp only [hasEdge_ensureNode, ensureNode_edges]
  split <;> rfl

theorem nxAddEdge_nodes_of_has {g : Graph} {s t : String} (d : EdgeData)
    (hs : hasNode g s = true) (ht : hasNode g t = true) :
    (nxAddEdge g s t d).nodes = g.nodes := by
  unfold nxAddEdge
  have h2 : (ensureNode (ensureNode g s) t).nodes = g.nodes := by
    rw [ensureNode_nodes_of_has (hasNode_ensureNode_of_has ht), ensureNode_nodes_of_has hs]
  simp only [hasEdge_ensureNode, ensureNode_edges]
  split <;> exact h2

theorem add_edge_edges_of_has {g : Graph} {s t : String} (rel : String) (w : Rat)
    (h : hasEdge g s t = true) :
    (add_edge g s t rel w).edges = bumpFirst g.edges s t w := by
  unfold add_edge; rw [if_pos h]

theorem add_edge_nodes_of_has {g : Graph} {s t : String} (rel : String) (w : Rat)
    (h : hasEdge g s t = true) :
    (add_edge g s t rel w).nodes = g.nodes := by
  unfold add_edge; rw [if_pos h]

theorem add_edge_edges_of_not_has {g : Graph} {s t : String} (rel : String) (w : Rat)
    (h : hasEdge g s t = false) :
    (add_edge g s t rel w).edges = g.edges ++ [(s, t, ⟨some rel, w⟩)] := by
  unfold add_edge
  rw [if_neg (by simp [h]), nxAddEdge_edges, if_neg (by simp [h])]

theorem add_edge_nodes_of_not_has {g : Graph} {s t : String} (rel : String) (w : Rat)
    (h : hasEdge g s t = false) (hs : hasNode g s = true) (ht : hasNode g t = true) :
    (add_edge g s t rel w).nodes = g.nodes := by
  unfold add_edge
  rw [if_neg (by simp [h])]
  exact nxAddEdge_nodes_of_has _ hs ht

theorem bumpFirst_endpointMap (es : List (String × String × EdgeData)) (s t : String)
    (w : Rat) :
    (bumpFirst es s t w).map (fun e => (e.1, e.2.1)) = es.map (fun e => (e.1, e.2.1)) := by
  induction es with
  | nil => rfl
  | cons e es ih =>
    unfold bumpFirst
    split <;> simp [ih]

theorem find?_bumpFirst_of_not {es : List (String × String × EdgeData)} {s t a b : String}
    (w : Rat) (h : pairMatches s t a b = false) :
    (bumpFirst es s t w).find? (fun e => pairMatches e.1 e.2.1 a b) =
      es.find? (fun e => pairMatches e.1 e.2.1 a b) := by
  induction es with
  | nil => rfl
  | cons e es ih =>
    unfold bumpFirst
    split
    · next hst =>
      have hab : pairMatches e.1 e.2.1 a b = false := by
        by_contra hc
        rw [Bool.not_eq_false] at hc
        rw [pairMatches_swap] at hst
        exact absurd (pairMatches_trans hst hc) (by simp [h])
      rw [List.find?_cons, List.find?_cons]
      simp only [hab]
    · next hst =>
      rw [List.find?_cons, List.find?_cons]
      cases hab : pairMatches e.1 e.2.1 a b
      · simpa using ih
      · rfl

theorem find?_bumpFirst_same (es : List (String × String × EdgeData)) (s t : String)
    (w : Rat) :
    (bumpFirst es s t w).find? (fun e => pairMatches e.1 e.2.1 s t) =
      (es.find? (fun e => pairMatches e.1 e.2.1 s t)).map
        (fun e => (e.1, e.2.1, (⟨e.2.2.relation, e.2.2.weight + w⟩ : EdgeData))) := by
  induction es with
  | nil => rfl
  | cons e es ih =>
    unfold bumpFirst
    split
    · next hst =>
      rw [List.find?_cons, List.find?_cons]
      simp only [hst]
      rfl
    · next hst =>
      have hst' : pairMatches e.1 e.2.1 s t = false := by
        simpa using hst
      rw [List.find?_cons, List.find?_cons]
      simp only [hst']
      exact ih

theorem hasEdge_iff_isSome {g : Graph} {a b : String} :
    hasEdge g a b = true ↔ (edgeData g a b).isSome = true := by
  simp [hasEdge, edgeData, Option.isSome_map, List.find?_isSome]

theorem edgeData_add_edge_same (g : Graph) (s t rel : String) (w : Rat) :
    edgeData (add_edge g s t rel w) s t =
      if hasEdge g s t then
        (edgeData g s t).map (fun d => (⟨d.relation, d.weight + w⟩ : EdgeData))
      else some ⟨some rel, w⟩ := by
  by_cases h : hasEdge g s t = true
  · rw [if_pos h]
    unfold edgeData
    rw [add_edge_edges_of_has rel w h, find?_bumpFirst_same]
    cases g.edges.find? (fun e => pairMatches e.1 e.2.1 s t) <;> rfl
  · rw [if_neg h]
    rw [Bool.not_eq_true] at h
    unfold edgeData
    rw [add_edge_edges_of_not_has rel w h, List.find?_append,
      List.find?_eq_none.2 (by simpa using hasEdge_eq_false_iff.1 h)]
    simp [pairMatches_refl]

theorem edgeData_add_edge_other {g : Graph} {s t a b : String} (rel : String) (w : Rat)
    (h : pairMatches s t a b = false) :
    edgeData (add_edge g s t rel w) a b = edgeData g a b := by
  by_cases hst : hasEdge g s t = true
  · unfold edgeData
    rw [add_edge_edges_of_has rel w hst, find?_bumpFirst_of_not w h]
  · rw [Bool.not_eq_true] at hst
    unfold edgeData
    rw [add_edge_edges_of_not_has rel w hst, List.find?_append]
    have : List.find? (fun e => pairMatches e.1 e.2.1 a b)
        [(s, t, (⟨some rel, w⟩ : EdgeData))] = none := by
      simp [List.find?, h]
    rw [this, Option.or_none]

theorem countPair_bumpFirst (g : Graph) (s t a b : String) (w : Rat) :
    countPair { g with edges := bumpFirst g.edges s t w } a b = countPair g a b := by
  unfold countPair
  rw [← List.countP_eq_length_filter, ← List.countP_eq_length_filter]
  have hmap : ∀ l : List (String × String × EdgeData),
      l.countP (fun e => pairMatches e.1 e.2.1 a b) =
        (l.map (fun e => (e.1, e.2.1))).countP (fun pr => pairMatches pr.1 pr.2 a b) := by
    intro l
    rw [List.countP_map]
    rfl
  rw [hmap, hmap, bumpFirst_endpointMap]

theorem countPair_add_edge_of_has {g : Graph} {s t : String} (rel : String) (w : Rat)
    (a b : String) (h : hasEdge g s t = true) :
    countPair (add_edge g s t rel w) a b = countPair g a b := by
  have he := add_edge_edges_of_has (g := g) rel w h
  calc countPair (add_edge g s t rel w) a b
      = countPair { g with edges := bumpFirst g.edges s t w } a b := by
        unfold countPair; rw [he]
    _ = countPair g a b := countPair_bumpFirst g s t a b w

theorem countPair_add_edge_of_not_has {g : Graph} {s t : String} (rel : String) (w : Rat)
    (a b : String) (h : hasEdge g s t = false) :
    countPair (add_edge g s t rel w) a b =
      countPair g a b + (if pairMatches s t a b then 1 else 0) := by
  unfold countPair
  rw [add_edge_edges_of_not_has rel w h, List.filter_append]
  simp only [List.length_append]
  congr 1
  split <;> simp_all [List.filter]

theorem weightOf_eqv {g : Graph} {s t a b : String} (h : pairMatches s t a b = true) :
    weightOf g s t = weightOf g a b := by
  unfold weightOf; rw [edgeData_eqv h]

theorem relationOf_eqv {g : Graph} {s t a b : String} (h : pairMatches s t a b = true) :
    relationOf g s t = relationOf g a b := by
  unfold relationOf; rw [edgeData_eqv h]

theorem weightOf_add_edge_other {g : Graph} {s t a b : String} (rel : String) (w : Rat)
    (h : pairMatches s t a b = false) :
    weightOf (add_edge g s t rel w) a b = weightOf g a b := by
  unfold weightOf; rw [edgeData_add_edge_other rel w h]

theorem weightOf_add_edge_bump {g : Graph} {s t a b : String} (rel : String) (w : Rat)
    (hpm : pairMatches s t a b = true) (hab : hasEdge g a b = true) :
    weightOf (add_edge g s t rel w) a b = weightOf g a b + w := by
  have hst : hasEdge g s t = true := by rw [hasEdge_eqv hpm]; exact hab
  have hd := edgeData_add_edge_same g s t rel w
  rw [if_pos hst] at hd
  rw [← weightOf_eqv hpm, ← weightOf_eqv (g := g) hpm]
  unfold weightOf
  rw [hd]
  rcases Option.isSome_iff_exists.1 (hasEdge_iff_isSome.1 hst) with ⟨dd, hdd⟩
  rw [hdd]
  rfl

/-- Claim C3: adding an edge on an unordered pair twice (in either
orientation) accumulates the weights into a single edge of weight
`w1 + w2`, never a second parallel edge and never an overwrite; and
`_add_edge` with a non-negative weight delta never decreases the weight
of any existing edge, so weights only grow across a build (build passes
only the positive deltas `1.0` and `len(intersection)`). -/
theorem claim_C3_weight_accumulation :
    (∀ (g : Graph) (a b c d r1 r2 : String) (w1 w2 : Rat),
      countPair g a b = 0 → pairMatches c d a b = true →
      countPair (add_edge (add_edge g a b r1 w1) c d r2 w2) a b = 1 ∧
        weightOf (add_edge (add_edge g a b r1 w1) c d r2 w2) a b = w1 + w2) ∧
    (∀ (g : Graph) (s t rel : String) (w : Rat) (a b : String),
      0 ≤ w → hasEdge g a b = true →
      weightOf g a b ≤ weightOf (add_edge g s t rel w) a b) := by
  constructor
  · intro g a b c d r1 r2 w1 w2 h0 hcd
    have hab : hasEdge g a b = false := countPair_eq_zero_iff.1 h0
    have hd1 : edgeData (add_edge g a b r1 w1) a b = some ⟨some r1, w1⟩ := by
      have h := edgeData_add_edge_same g a b r1 w1
      rwa [if_neg (by simp [hab])] at h
    have h1 : hasEdge (add_edge g a b r1 w1) a b = true :=
      hasEdge_iff_isSome.2 (by rw [hd1]; rfl)
    have h1cd : hasEdge (add_edge g a b r1 w1) c d = true := by
      rw [hasEdge_eqv hcd]; exact h1
    constructor
    · rw [countPair_add_edge_of_has r2 w2 a b h1cd,
        countPair_add_edge_of_not_has r1 w1 a b hab, h0, if_pos (pairMatches_refl a b)]
    · rw [weightOf_add_edge_bump r2 w2 hcd h1]
      have : weightOf (add_edge g a b r1 w1) a b = w1 := by
        unfold weightOf; rw [hd1]; rfl
      rw [this]
  · intro g s t rel w a b hw hab
    by_cases hpm : pairMatches s t a b = true
    · rw [weightOf_add_edge_bump rel w hpm hab]
      linarith
    · rw [Bool.not_eq_true] at hpm
      rw [weightOf_add_edge_other rel w hpm]

/-- Witness for claim C3 at a concrete input: the two hypotheses hold
for an empty graph and the reversed orientation `("b","a")`, and the
theorem yields one accumulated edge of weight `1 + 2`. -/
theorem claim_C3_weight_accumulation_witness :
    (countPair (add_edge (add_edge emptyGraph "a" "b" "r" 1) "b" "a" "s" 2) "a" "b" = 1 ∧
      weightOf (add_edge (add_edge emptyGraph "a" "b" "r" 1) "b" "a" "s" 2) "a" "b" = 1 + 2) ∧
    weightOf (add_edge emptyGraph "a" "b" "r" 1) "a" "b" ≤
      weightOf (add_edge (add_edge emptyGraph "a" "b" "r" 1) "b" "a" "s" 2) "a" "b" :=
  ⟨claim_C3_weight_accumulation.1 emptyGraph "a" "b" "b" "a" "r" "s" 1 2 (by decide)
      (by decide),
    claim_C3_weight_accumulation.2 (add_edge emptyGraph "a" "b" "r" 1) "b" "a" "s" 2 "a" "b"
      (by norm_num) (by decide)⟩

/-- Claim C5: `query` on an index with no indexed chunks returns the
empty result list (never an error), and `answer_query` with no
retrieved sources returns the fixed no-content message with empty
sources, empty path and empty subgraph; the result does not depend on
the external synthesis capability at all, i.e. no external call is
observable. -/
theorem claim_C5_empty_state :
    (∀ (qvec : List Rat) (ord : List Nat) (k : Nat),
      queryWith ⟨[], []⟩ qvec ord k = []) ∧
    (∀ (g : Graph) (question : String) (llm : Option LlmOutcome),
      answer_query g question [] llm =
        Except.ok ⟨noContentMsg, [], [], ⟨[], []⟩⟩) := by
  exact ⟨fun _ _ _ => rfl, fun _ _ _ => rfl⟩

/-- Claim C4: with as many vectors as chunks and any index order
satisfying the `np.argsort(-sims)` contract, `query` returns exactly
`min k n` results (so exactly `n` when `k > n`), in non-increasing
similarity order, and never fails (it is total). -/
theorem claim_C4_k_clamping :
    ∀ (m : SparseIndex) (qvec : List Rat) (ord : List Nat) (k : Nat),
      m.embeddings.length = m.meta.length →
      IsArgsortDesc (simsOf m qvec) ord →
      (queryWith m qvec ord k).length = min k m.meta.length ∧
      (m.meta.length < k → (queryWith m qvec ord k).length = m.meta.length) ∧
      (queryWith m qvec ord k).Pairwise (fun x y => y.2 ≤ x.2) := by
  intro m qvec ord k hlen hord
  have hordlen : ord.length = m.meta.length := by
    rw [hord.1.length_eq, List.length_range]
    simp [simsOf, hlen]
  by_cases hm : m.meta = []
  · refine ⟨?_, ?_, ?_⟩ <;> simp [queryWith, hm]
  · have hq : queryWith m qvec ord k =
        (ord.take (min k m.meta.length)).map
          (fun i => (m.meta.getD i default, (simsOf m qvec).getD i 0)) := by
      unfold queryWith
      rw [if_neg (by simp [hm])]
    constructor
    · rw [hq, List.length_map, List.length_take, hordlen]
      omega
    constructor
    · intro hk
      rw [hq, List.length_map, List.length_take, hordlen]
      omega
    · rw [hq, List.pairwise_map]
      exact (hord.2.take (n := min k m.meta.length)).imp (fun h => h)

/-- Witness for claim C4 at a concrete input: a two-chunk index queried
with `k = 5` returns both chunks, highest score first. -/
theorem claim_C4_k_clamping_witness :
    (queryWith ⟨[⟨"A", "", "", ""⟩, ⟨"B", "", "", ""⟩], [[1], [2]]⟩ [1] [1, 0] 5).length =
        min 5 2 ∧
      (2 < 5 →
        (queryWith ⟨[⟨"A", "", "", ""⟩, ⟨"B", "", "", ""⟩], [[1], [2]]⟩ [1] [1, 0] 5).length = 2) ∧
      (queryWith ⟨[⟨"A", "", "", ""⟩, ⟨"B", "", "", ""⟩], [[1], [2]]⟩ [1] [1, 0] 5).Pairwise
        (fun x y => y.2 ≤ x.2) :=
  claim_C4_k_clamping ⟨[⟨"A", "", "", ""⟩, ⟨"B", "", "", ""⟩], [[1], [2]]⟩ [1] [1, 0] 5
    (by decide) ⟨by decide, by norm_num [simsOf, dot, List.pairwise_cons]⟩

/-- The two-chunk index used to exhibit the unstable tie in claim C6. -/
def cexIndex : SparseIndex :=
  ⟨[⟨"A", "", "", ""⟩, ⟨"B", "", "", ""⟩], [[1], [1]]⟩

/-- Counterexample to claim C6 as stated: `np.argsort` with the default
`kind='quicksort'` only guarantees a similarity-sorted permutation, and
the order `[1, 0]` satisfies that contract for the tied similarities
`[1, 1]`, yet makes `query` return the two equal-score chunks in the
reverse of their order in `meta` — so the tie-break by original index
order (stability) is not guaranteed by the code. -/
theorem claim_C6_counterexample :
    IsArgsortDesc (simsOf cexIndex [1]) [1, 0] ∧
    queryWith cexIndex [1] [1, 0] 2 =
      [(⟨"B", "", "", ""⟩, 1), (⟨"A", "", "", ""⟩, 1)] ∧
    cexIndex.meta = [⟨"A", "", "", ""⟩, ⟨"B", "", "", ""⟩] ∧
    (⟨"A", "", "", ""⟩ : Chunk) ≠ ⟨"B", "", "", ""⟩ := by
  refine ⟨⟨by decide, by norm_num [cexIndex, simsOf, dot, List.pairwise_cons]⟩, ?_,
    by decide, by decide⟩
  norm_num [queryWith, cexIndex, simsOf, dot, List.getD]

/-- Claim C6 amended: under the sparse backend, `query` computes the
cosine similarity of the projected query vector against every stored
vector and returns the top-k by descending similarity — every returned
score dominates every omitted one — but the relative order of results
with equal scores is whatever the unstable `np.argsort` produced, not
necessarily the original `meta` order. -/
theorem claim_C6_amended :
    ∀ (m : SparseIndex) (qvec : List Rat) (ord : List Nat) (k : Nat),
      m.embeddings.length = m.meta.length →
      IsArgsortDesc (simsOf m qvec) ord →
      (queryWith m qvec ord k).Pairwise (fun x y => y.2 ≤ x.2) ∧
      (∀ p ∈ queryWith m qvec ord k, ∀ j ∈ ord.drop (min k m.meta.length),
        (simsOf m qvec).getD j 0 ≤ p.2) := by
  intro m qvec ord k hlen hord
  by_cases hm : m.meta = []
  · constructor <;> simp [queryWith, hm]
  · have hq : queryWith m qvec ord k =
        (ord.take (min k m.meta.length)).map
          (fun i => (m.meta.getD i default, (simsOf m qvec).getD i 0)) := by
      unfold queryWith
      rw [if_neg (by simp [hm])]
    constructor
    · rw [hq, List.pairwise_map]
      exact (hord.2.take (n := min k m.meta.length)).imp (fun h => h)
    · intro p hp j hj
      rw [hq, List.mem_map] at hp
      rcases hp with ⟨i, hi, hpi⟩
      have hcross : ∀ x ∈ ord.take (min k m.meta.length),
          ∀ y ∈ ord.drop (min k m.meta.length),
          (simsOf m qvec).getD y 0 ≤ (simsOf m qvec).getD x 0 := by
        have h2 := hord.2
        rw [← List.take_append_drop (min k m.meta.length) ord, List.pairwise_append] at h2
        exact h2.2.2
      rw [← hpi]
      exact hcross i hi j hj

/-- Witness for claim C6 (amended) at a concrete input: on the tied
index with the non-stable order `[1, 0]`, the returned scores are
non-increasing and dominate the omitted ones. -/
theorem claim_C6_amended_witness :
    (queryWith cexIndex [1] [1, 0] 2).Pairwise (fun x y => y.2 ≤ x.2) ∧
    (∀ p ∈ queryWith cexIndex [1] [1, 0] 2, ∀ j ∈ ([1, 0] : List Nat).drop (min 2 2),
      (simsOf cexIndex [1]).getD j 0 ≤ p.2) :=
  claim_C6_amended cexIndex [1] [1, 0] 2 (by decide)
    ⟨by decide, by norm_num [cexIndex, simsOf, dot, List.pairwise_cons]⟩

/-! ### Lemmas: the bridge search as a first-maximum selection -/

theorem foldl_filter_eq {α β : Type} (p : α → Bool) (f : β → α → β) (l : List α) :
    ∀ init : β, (l.filter p).foldl f init =
      l.foldl (fun acc x => if p x then f acc x else acc) init := by
  induction l with
  | nil => intro init; rfl
  | cons x xs ih =>
    intro init
    rw [List.filter_cons]
    cases hp : p x <;> simp [hp, ih]

/-- The running-maximum step of the neighbor loop, abstracted over the
scoring function. -/
def maxStep (f : String → Rat) (best : Option String × Rat) (nb : String) :
    Option String × Rat :=
  if best.2 < f nb then (some nb, f nb) else best

theorem foldl_maxStep_no_improve (f : String → Rat) (l : List String) :
    ∀ (o : Option String) (v : Rat), (∀ c ∈ l, f c ≤ v) →
      l.foldl (maxStep f) (o, v) = (o, v) := by
  induction l with
  | nil => intro o v _; rfl
  | cons c cs ih =>
    intro o v h
    rw [List.foldl_cons]
    have hc : ¬ v < f c := not_lt.2 (h c (List.mem_cons_self c cs))
    rw [show maxStep f (o, v) c = (o, v) from if_neg hc]
    exact ih o v fun x hx => h x (List.mem_cons_of_mem c hx)

theorem foldl_maxStep_snd_lt (f : String → Rat) (l : List String) (b : Rat) :
    ∀ (o : Option String) (v : Rat), v < b → (∀ c ∈ l, f c < b) →
      (l.foldl (maxStep f) (o, v)).2 < b := by
  induction l with
  | nil => intro o v hv _; exact hv
  | cons c cs ih =>
    intro o v hv h
    rw [List.foldl_cons]
    unfold maxStep
    split
    · exact ih (some c) (f c) (h c (List.mem_cons_self c cs))
        fun x hx => h x (List.mem_cons_of_mem c hx)
    · exact ih o v hv fun x hx => h x (List.mem_cons_of_mem c hx)

theorem foldl_maxStep_first_max (f : String → Rat) (pre : List String) (m : String)
    (post : List String) (o : Option String) (v : Rat) (hv : v < f m)
    (hpre : ∀ c ∈ pre, f c < f m) (hpost : ∀ c ∈ post, f c ≤ f m) :
    (pre ++ m :: post).foldl (maxStep f) (o, v) = (some m, f m) := by
  rw [List.foldl_append]
  have h1 : (pre.foldl (maxStep f) (o, v)).2 < f m :=
    foldl_maxStep_snd_lt f pre (f m) o v hv hpre
  rcases hfold : pre.foldl (maxStep f) (o, v) with ⟨o1, v1⟩
  rw [hfold] at h1
  rw [List.foldl_cons]
  rw [show maxStep f (o1, v1) m = (some m, f m) from if_pos h1]
  exact foldl_maxStep_no_improve f post (some m) (f m) hpost

theorem bestBridgeFold_eq (g : Graph) (last pid : String) :
    bestBridgeFold g last pid =
      (candidates g last pid).foldl (maxStep (bridgeScore g last pid)) (none, 0) := by
  unfold bestBridgeFold candidates
  rw [foldl_filter_eq]
  rfl

theorem mem_adjacency {g : Graph} {v nb : String} (h : nb ∈ adjacency g v) :
    ∃ e ∈ g.edges, (e.1 = v ∧ e.2.1 = nb) ∨ (e.2.1 = v ∧ e.1 = nb) := by
  unfold adjacency at h
  rcases List.mem_filterMap.1 h with ⟨e, he, hmap⟩
  refine ⟨e, he, ?_⟩
  by_cases h1 : (e.1 == v) = true
  · rw [if_pos h1] at hmap
    exact Or.inl ⟨by simpa using h1, by simpa using hmap⟩
  · rw [if_neg h1] at hmap
    by_cases h2 : (e.2.1 == v) = true
    · rw [if_pos h2] at hmap
      exact Or.inr ⟨by simpa using h2, by simpa using hmap⟩
    · rw [if_neg h2] at hmap
      exact absurd hmap (by simp)

theorem hasEdge_of_mem_adjacency {g : Graph} {v nb : String} (h : nb ∈ adjacency g v) :
    hasEdge g v nb = true := by
  rcases mem_adjacency h with ⟨e, he, hor⟩
  unfold hasEdge
  refine List.any_eq_true.2 ⟨e, he, ?_⟩
  rcases hor with ⟨h1, h2⟩ | ⟨h1, h2⟩ <;> simp [pairMatches, h1, h2]

theorem ne_empty_of_mem_adjacency {g : Graph} {v nb : String}
    (hnil : ∀ e ∈ g.edges, e.1 ≠ "" ∧ e.2.1 ≠ "") (h : nb ∈ adjacency g v) : nb ≠ "" := by
  rcases mem_adjacency h with ⟨e, he, hor⟩
  rcases hor with ⟨_, h2⟩ | ⟨_, h2⟩
  · exact h2 ▸ (hnil e he).2
  · exact h2 ▸ (hnil e he).1

theorem weightOf_pos {g : Graph} {a b : String}
    (hpos : ∀ e ∈ g.edges, 0 < e.2.2.weight) (h : hasEdge g a b = true) :
    0 < weightOf g a b := by
  rcases Option.isSome_iff_exists.1 (hasEdge_iff_isSome.1 h) with ⟨d, hd⟩
  have hd' := hd
  unfold edgeData at hd'
  rcases Option.map_eq_some'.1 hd' with ⟨e, hfind, hed⟩
  have he : e ∈ g.edges := List.mem_of_find?_eq_some hfind
  unfold weightOf
  rw [hd]
  simpa [← hed] using hpos e he

theorem candidates_spec {g : Graph} {last pid nb : String} (h : nb ∈ candidates g last pid) :
    nb ∈ adjacency g last ∧ nodeType g nb = some "concept" ∧ hasEdge g nb pid = true := by
  unfold candidates at h
  rcases List.mem_filter.1 h with ⟨hmem, hp⟩
  rw [Bool.and_eq_true, beq_iff_eq] at hp
  exact ⟨hmem, hp.1, hp.2⟩

theorem bridgeScore_pos {g : Graph} {last pid nb : String}
    (hpos : ∀ e ∈ g.edges, 0 < e.2.2.weight) (h : nb ∈ candidates g last pid) :
    0 < bridgeScore g last pid nb := by
  obtain ⟨hn, _, hePid⟩ := candidates_spec h
  exact add_pos (weightOf_pos hpos (hasEdge_of_mem_adjacency hn)) (weightOf_pos hpos hePid)

theorem mem_getLastD {l : List String} (h : l ≠ []) : l.getLastD "" ∈ l := by
  rw [List.getLastD_eq_getLast?, List.getLast?_eq_getLast l h]
  exact List.getLast_mem h

theorem appendNew_nodup (ns : List String) :
    ∀ path : List String, path.Nodup → (appendNew path ns).Nodup := by
  induction ns with
  | nil => intro path hp; exact hp
  | cons n ns ih =>
    intro path hp
    unfold appendNew
    rw [List.foldl_cons]
    by_cases hc : path.contains n = true
    · rw [if_pos hc]
      exact ih path hp
    · rw [if_neg hc]
      refine ih (path ++ [n]) (List.nodup_append.2 ⟨hp, List.nodup_singleton n, ?_⟩)
      intro a ha hb
      rw [List.mem_singleton] at hb
      rw [Bool.not_eq_true] at hc
      subst hb
      revert hc
      simpa using ha

/-! ### Lemmas: the build phases -/

theorem pairMatches_false_left {x y a b : String} (hxa : x ≠ a) (hxb : x ≠ b) :
    pairMatches x y a b = false := by
  simp [pairMatches, hxa, hxb]

theorem pairMatches_false_of_ne_a {x y a b : String} (hx : x ≠ a) (hy : y ≠ a) :
    pairMatches x y a b = false := by
  simp [pairMatches, hx, hy]

theorem hasNode_iff_mem_keys {g : Graph} {n : String} :
    hasNode g n = true ↔ n ∈ g.nodes.map (·.1) := by
  simp [hasNode, List.any_eq_true, List.mem_map, beq_iff_eq]

theorem add_edge_nodes_stable {g : Graph} {s t : String} (rel : String) (w : Rat)
    (hs : hasNode g s = true) (ht : hasNode g t = true) :
    (add_edge g s t rel w).nodes = g.nodes := by
  by_cases h : hasEdge g s t = true
  · exact add_edge_nodes_of_has rel w h
  · rw [Bool.not_eq_true] at h
    exact add_edge_nodes_of_not_has rel w h hs ht

theorem hasNode_nxAddEdge {g : Graph} {s t n : String} {d : EdgeData}
    (h : hasNode g n = true) : hasNode (nxAddEdge g s t d) n = true := by
  unfold nxAddEdge
  simp only [hasEdge_ensureNode, ensureNode_edges]
  split
  · exact hasNode_ensureNode_of_has (hasNode_ensureNode_of_has h)
  · exact hasNode_ensureNode_of_has (hasNode_ensureNode_of_has h)

theorem hasNode_add_edge {g : Graph} {s t n : String} (rel : String) (w : Rat)
    (h : hasNode g n = true) : hasNode (add_edge g s t rel w) n = true := by
  unfold add_edge
  split
  · exact h
  · exact hasNode_nxAddEdge h

theorem add_edge_endpointPairs {g : Graph} {s t : String} (rel : String) (w : Rat) :
    ∀ e ∈ (add_edge g s t rel w).edges,
      (e.1, e.2.1) = (s, t) ∨ ∃ e0 ∈ g.edges, (e.1, e.2.1) = (e0.1, e0.2.1) := by
  intro e he
  by_cases h : hasEdge g s t = true
  · rw [add_edge_edges_of_has rel w h] at he
    have hmap : (e.1, e.2.1) ∈ (bumpFirst g.edges s t w).map (fun e => (e.1, e.2.1)) :=
      List.mem_map_of_mem _ he
    rw [bumpFirst_endpointMap] at hmap
    rcases List.mem_map.1 hmap with ⟨e0, he0, heq⟩
    exact Or.inr ⟨e0, he0, heq.symm⟩
  · rw [Bool.not_eq_true] at h
    rw [add_edge_edges_of_not_has rel w h] at he
    rcases List.mem_append.1 he with he0 | he1
    · exact Or.inr ⟨e, he0, rfl⟩
    · rw [List.mem_singleton] at he1
      subst he1
      exact Or.inl rfl

theorem countPair_frame {g : Graph} {s t a b : String} (rel : String) (w : Rat)
    (h : pairMatches s t a b = false) :
    countPair (add_edge g s t rel w) a b = countPair g a b := by
  by_cases hst : hasEdge g s t = true
  · exact countPair_add_edge_of_has rel w a b hst
  · rw [Bool.not_eq_true] at hst
    rw [countPair_add_edge_of_not_has rel w a b hst, h]
    simp

theorem relationOf_add_edge_other {g : Graph} {s t a b : String} (rel : String) (w : Rat)
    (h : pairMatches s t a b = false) :
    relationOf (add_edge g s t rel w) a b = relationOf g a b := by
  unfold relationOf
  rw [edgeData_add_edge_other rel w h]

/-- The observable state of the unordered pair `(a, b)`:
how many edges, which weight, which relation. -/
def edgeState (g : Graph) (a b : String) : Nat × Rat × Option String :=
  (countPair g a b, weightOf g a b, relationOf g a b)

theorem edgeState_of_zero {g : Graph} {a b : String} (h : countPair g a b = 0) :
    edgeState g a b = (0, 0, none) := by
  have hne := countPair_eq_zero_iff.1 h
  have hed := edgeData_eq_none_of_not_has hne
  unfold edgeState weightOf relationOf
  rw [h, hed]
  rfl

theorem edgeState_add_edge_frame {g : Graph} {s t a b : String} (rel : String) (w : Rat)
    (h : pairMatches s t a b = false) :
    edgeState (add_edge g s t rel w) a b = edgeState g a b := by
  unfold edgeState
  rw [countPair_frame rel w h, weightOf_add_edge_other rel w h,
    relationOf_add_edge_other rel w h]

/-! ### Lemmas: substring occurrence -/

theorem subAt_append_self : ∀ (n r : List Char), subAt n (n ++ r) = true := by
  intro n
  induction n with
  | nil => intro r; rfl
  | cons c cs ih =>
    intro r
    simp only [List.cons_append, subAt, Bool.and_true, Bool.true_and, beq_self_eq_true]
    exact ih r

theorem containsSub_append (n : List Char) :
    ∀ (l r : List Char), containsSub n (l ++ n ++ r) = true := by
  intro l
  induction l with
  | nil =>
    intro r
    cases n with
    | nil => cases r <;> rfl
    | cons c cs =>
      have hsub : subAt (c :: cs) (c :: (cs ++ r)) = true := subAt_append_self (c :: cs) r
      show (subAt (c :: cs) (c :: (cs ++ r)) || containsSub (c :: cs) (cs ++ r)) = true
      rw [hsub]
      rfl
  | cons x l ih =>
    intro r
    show (subAt n (x :: (l ++ n ++ r)) || containsSub n (l ++ n ++ r)) = true
    rw [ih r, Bool.or_true]

theorem containsSub_of_occursIn {needle hay : String} (h : occursIn needle hay) :
    containsSub needle.data hay.data = true := by
  rcases h with ⟨l, r, hE⟩
  rw [hE]
  exact containsSub_append needle.data l r

/-- Counterexample to claim C9 as stated: a present but malformed
snapshot file is not treated as absent state — `json.load` raises and
neither `KnowledgeGraph.load` nor the metadata part of
`VectorIndex.load` wraps it in try/except, so the parse error
propagates to the caller instead of yielding an empty, valid state. -/
theorem claim_C9_counterexample :
    (kgLoad emptyGraph (FileState.malformed "Expecting value")).isOk = false ∧
    (viLoadMeta [] (FileState.malformed "Expecting value")).isOk = false :=
  ⟨rfl, rfl⟩

/-- Claim C9 amended: an absent snapshot file yields the empty, valid
state (no error, rebuild possible); a well-formed file is loaded; but a
present, malformed file raises the parse error to the caller (only the
dense faiss index file read is individually wrapped in try/except in
the source). -/
theorem claim_C9_amended :
    kgLoad emptyGraph FileState.absent = Except.ok emptyGraph ∧
    viLoadMeta [] FileState.absent = Except.ok [] ∧
    (∀ d : GraphSnapshot,
      kgLoad emptyGraph (FileState.wellFormed d) = Except.ok (loadFromSnapshot d)) ∧
    (∀ meta : List Chunk,
      viLoadMeta [] (FileState.wellFormed meta) = Except.ok meta) ∧
    (∀ msg : String, kgLoad emptyGraph (FileState.malformed msg) = Except.error msg) ∧
    (∀ msg : String, viLoadMeta [] (FileState.malformed msg) = Except.error msg) :=
  ⟨rfl, rfl, fun _ => rfl, fun _ => rfl, fun _ => rfl, fun _ => rfl⟩

/-! ### Lemmas: persistence round trip -/

/-- Node keys are pairwise distinct (true of any `networkx` graph). -/
def NodupKeys (g : Graph) : Prop := (g.nodes.map (·.1)).Nodup

/-- No two stored edges lie on the same unordered pair
(true of any `networkx` graph). -/
def EdgePairsDistinct (g : Graph) : Prop :=
  g.edges.Pairwise (fun e f => pairMatches e.1 e.2.1 f.1 f.2.1 = false)

/-- Every edge endpoint is a node (true of any `networkx` graph). -/
def EndpointsPresent (g : Graph) : Prop :=
  ∀ e ∈ g.edges, hasNode g e.1 = true ∧ hasNode g e.2.1 = true

theorem graph_ext {a b : Graph} (h1 : a.nodes = b.nodes) (h2 : a.edges = b.edges) :
    a = b := by
  cases a; cases b; simp_all

theorem foldl_addNode_append (l : List (String × NodeData)) :
    ∀ (g : Graph), (∀ x ∈ l, hasNode g x.1 = false) → (l.map (·.1)).Nodup →
    l.foldl (fun g p => addNode g p.1 p.2) g = { g with nodes := g.nodes ++ l } := by
  induction l with
  | nil =>
    intro g _ _
    cases g
    simp
  | cons x xs ih =>
    intro g hdisj hnd
    rw [List.map_cons, List.nodup_cons] at hnd
    have hx : hasNode g x.1 = false := hdisj x (List.mem_cons_self x xs)
    have hstep : addNode g x.1 x.2 = { g with nodes := g.nodes ++ [x] } := by
      unfold addNode
      rw [if_neg (by simp [hx])]
    rw [List.foldl_cons, hstep]
    have hdisj' : ∀ y ∈ xs, hasNode { g with nodes := g.nodes ++ [x] } y.1 = false := by
      intro y hy
      have h1 : hasNode g y.1 = false := hdisj y (List.mem_cons_of_mem x hy)
      have h2 : x.1 ≠ y.1 := by
        intro hc
        exact hnd.1 (hc ▸ List.mem_map_of_mem (·.1) hy)
      simp only [hasNode, List.any_append, Bool.or_eq_false_iff]
      exact ⟨by simpa [hasNode] using h1, by simp [h2]⟩
    rw [ih _ hdisj' hnd.2]
    exact graph_ext (by simp) rfl

theorem nxAddEdge_fresh {g : Graph} {s t : String} (d : EdgeData)
    (hs : hasNode g s = true) (ht : hasNode g t = true) (hne : hasEdge g s t = false) :
    nxAddEdge g s t d = { g with edges := g.edges ++ [(s, t, d)] } := by
  refine graph_ext ?_ ?_
  · rw [nxAddEdge_nodes_of_has d hs ht]
  · rw [nxAddEdge_edges, if_neg (by simp [hne])]

theorem foldl_nxAddEdge_append (l : List SnapEdge) :
    ∀ (g : Graph),
    (∀ e ∈ l, hasNode g e.source = true ∧ hasNode g e.target = true) →
    (∀ e ∈ l, hasEdge g e.source e.target = false) →
    l.Pairwise (fun e f => pairMatches e.source e.target f.source f.target = false) →
    l.foldl (fun g e => nxAddEdge g e.source e.target ⟨e.relation, e.weight.getD 1⟩) g =
      { g with edges := g.edges ++
          l.map (fun e => (e.source, e.target, (⟨e.relation, e.weight.getD 1⟩ : EdgeData))) } := by
  induction l with
  | nil =>
    intro g _ _ _
    cases g
    simp
  | cons x xs ih =>
    intro g hnode hnew hdist
    have hx := hnode x (List.mem_cons_self x xs)
    rw [List.foldl_cons,
      nxAddEdge_fresh _ hx.1 hx.2 (hnew x (List.mem_cons_self x xs))]
    have hpw := List.pairwise_cons.1 hdist
    have hnode' : ∀ e ∈ xs,
        hasNode { g with edges := g.edges ++ [(x.source, x.target, (⟨x.relation, x.weight.getD 1⟩ : EdgeData))] } e.source = true ∧
        hasNode { g with edges := g.edges ++ [(x.source, x.target, (⟨x.relation, x.weight.getD 1⟩ : EdgeData))] } e.target = true := by
      intro e he
      exact hnode e (List.mem_cons_of_mem x he)
    have hnew' : ∀ e ∈ xs,
        hasEdge { g with edges := g.edges ++ [(x.source, x.target, (⟨x.relation, x.weight.getD 1⟩ : EdgeData))] } e.source e.target = false := by
      intro e he
      simp only [hasEdge, List.any_append, Bool.or_eq_false_iff]
      refine ⟨by simpa [hasEdge] using hnew e (List.mem_cons_of_mem x he), ?_⟩
      simp [hpw.1 e he]
    rw [ih _ hnode' hnew' hpw.2]
    exact graph_ext rfl (by simp)

/-- Claim C8: persisting and re-loading in a fresh process restores the
graph exactly — same node list (ids, labels, kinds) and same edge list
(endpoints, relations, weights) — and restores the chunk-metadata
sequence unchanged; the sparse backend's vectors are outside the
snapshot (lazily refit).  The hypotheses are the structural invariants
every `networkx` graph satisfies. -/
theorem claim_C8_roundtrip :
    ∀ (g : Graph) (meta : List Chunk),
      NodupKeys g → EdgePairsDistinct g → EndpointsPresent g →
      loadFromSnapshot (persistSnapshot g) = g ∧
      (∀ e, e ∈ (loadFromSnapshot (persistSnapshot g)).edges ↔ e ∈ g.edges) ∧
      viLoadMeta [] (FileState.wellFormed meta) = Except.ok meta := by
  intro g meta hnd hdist hpres
  have hn : (g.nodes.map (fun p => (⟨p.1, p.2.label, p.2.type⟩ : SnapNode))).foldl
      (fun acc n => addNode acc n.id ⟨n.label, n.type⟩) emptyGraph =
        (⟨g.nodes, []⟩ : Graph) := by
    rw [List.foldl_map]
    exact (foldl_addNode_append g.nodes emptyGraph (fun _ _ => rfl) hnd).trans
      (graph_ext (by simp [emptyGraph]) rfl)
  have hfold := foldl_nxAddEdge_append
    (g.edges.map (fun e => (⟨e.1, e.2.1, e.2.2.relation, some e.2.2.weight⟩ : SnapEdge)))
    (⟨g.nodes, []⟩ : Graph)
    (by
      intro e he
      rcases List.mem_map.1 he with ⟨ed, hed, hmap⟩
      have h := hpres ed hed
      rw [← hmap]
      exact ⟨h.1, h.2⟩)
    (fun _ _ => rfl)
    (by
      rw [List.pairwise_map]
      exact hdist.imp (fun h => h))
  have hback : (g.edges.map
      (fun e => (⟨e.1, e.2.1, e.2.2.relation, some e.2.2.weight⟩ : SnapEdge))).map
        (fun e => (e.source, e.target, (⟨e.relation, e.weight.getD 1⟩ : EdgeData))) =
      g.edges := by
    rw [List.map_map]
    have hid : ((fun e : SnapEdge =>
          (e.source, e.target, (⟨e.relation, e.weight.getD 1⟩ : EdgeData))) ∘
        (fun e : String × String × EdgeData =>
          (⟨e.1, e.2.1, e.2.2.relation, some e.2.2.weight⟩ : SnapEdge))) = id := by
      funext e
      rfl
    rw [hid, List.map_id]
  rw [hback] at hfold
  have hmain : loadFromSnapshot (persistSnapshot g) = g :=
    calc loadFromSnapshot (persistSnapshot g)
        = (g.edges.map
            (fun e => (⟨e.1, e.2.1, e.2.2.relation, some e.2.2.weight⟩ : SnapEdge))).foldl
            (fun acc e => nxAddEdge acc e.source e.target ⟨e.relation, e.weight.getD 1⟩)
            ((g.nodes.map (fun p => (⟨p.1, p.2.label, p.2.type⟩ : SnapNode))).foldl
              (fun acc n => addNode acc n.id ⟨n.label, n.type⟩) emptyGraph) := rfl
      _ = (g.edges.map
            (fun e => (⟨e.1, e.2.1, e.2.2.relation, some e.2.2.weight⟩ : SnapEdge))).foldl
            (fun acc e => nxAddEdge acc e.source e.target ⟨e.relation, e.weight.getD 1⟩)
            (⟨g.nodes, []⟩ : Graph) := by rw [hn]
      _ = { nodes := g.nodes, edges := ([] : List (String × String × EdgeData)) ++ g.edges } :=
            hfold
      _ = g := graph_ext rfl (by simp)
  exact ⟨hmain, fun e => by rw [hmain], rfl⟩

/-- Witness for claim C8 at a concrete input: a two-node, one-edge
graph and a one-chunk metadata list survive the round trip. -/
theorem claim_C8_roundtrip_witness :
    loadFromSnapshot (persistSnapshot
        ⟨[("A", ⟨some "Paper A", some "paper"⟩), ("B", ⟨none, none⟩)],
          [("A", "B", ⟨some "related", 2⟩)]⟩) =
      ⟨[("A", ⟨some "Paper A", some "paper"⟩), ("B", ⟨none, none⟩)],
        [("A", "B", ⟨some "related", 2⟩)]⟩ ∧
    (∀ e, e ∈ (loadFromSnapshot (persistSnapshot
        (⟨[("A", ⟨some "Paper A", some "paper"⟩), ("B", ⟨none, none⟩)],
          [("A", "B", ⟨some "related", 2⟩)]⟩ : Graph))).edges ↔
      e ∈ (⟨[("A", ⟨some "Paper A", some "paper"⟩), ("B", ⟨none, none⟩)],
          [("A", "B", ⟨some "related", 2⟩)]⟩ : Graph).edges) ∧
    viLoadMeta [] (FileState.wellFormed [⟨"A", "Paper A", "A_0", "text"⟩]) =
      Except.ok [⟨"A", "Paper A", "A_0", "text"⟩] :=
  claim_C8_roundtrip
    ⟨[("A", ⟨some "Paper A", some "paper"⟩), ("B", ⟨none, none⟩)],
      [("A", "B", ⟨some "related", 2⟩)]⟩
    [⟨"A", "Paper A", "A_0", "text"⟩]
    (by unfold NodupKeys; decide) (by unfold EdgePairsDistinct; decide)
    (by unfold EndpointsPresent; decide)

/-- Counterexample to claim C1 as stated: with the vector index built
but the knowledge graph still empty — a reachable state, since the
index and the graph are built by separate endpoints — the stop `"A"`
is not a node of the graph, so the second iteration's neighbor scan
raises `NetworkXError` instead of appending `"B"` alone as the claimed
rule requires. -/
theorem claim_C1_counterexample :
    stitchPath emptyGraph ["A", "B"] =
      Except.error "The node A is not in the graph." ∧
    stitchPath emptyGraph ["A", "B"] ≠ Except.ok ["A", "B"] := by
  decide

/-- Claim C1 amended: path stitching is deterministic (the embedding is
a pure function of the graph and the stop list) and each step follows
the stated rule on the domain where the neighbor scan is defined: with
`last` the current tail of the path, (i) a direct edge appends `pid`
unless already present (no neighbor scan happens); (ii) with no direct
edge and `last` absent from the graph, the step raises `NetworkXError`
instead of appending `pid` alone; (iii) with no direct edge, `last` a
node, and no bridge candidate, `pid` is appended alone unless present;
(iv) with no direct edge and `last` a node, the first candidate in
graph iteration order whose weight sum is maximal (strictly above all
earlier candidates, at least all later ones — first-seen wins ties) is
appended, then `pid`, skipping nodes already present; (v) a node
already in the path is never appended again on any non-raising step.
Weights are assumed positive and node ids non-empty, as in every graph
this system builds. -/
theorem claim_C1_stitching :
    ∀ (g : Graph) (path : List String) (pid : String),
      (∀ e ∈ g.edges, 0 < e.2.2.weight) →
      (∀ e ∈ g.edges, e.1 ≠ "" ∧ e.2.1 ≠ "") →
      path ≠ [] →
      (hasEdge g (path.getLastD "") pid = true →
        stitchStep g path pid =
          Except.ok (path ++ (if path.contains pid then [] else [pid]))) ∧
      (hasEdge g (path.getLastD "") pid = false →
        hasNode g (path.getLastD "") = false →
        stitchStep g path pid =
          Except.error ("The node " ++ path.getLastD "" ++ " is not in the graph.")) ∧
      (hasEdge g (path.getLastD "") pid = false →
        hasNode g (path.getLastD "") = true →
        candidates g (path.getLastD "") pid = [] →
        stitchStep g path pid =
          Except.ok (path ++ (if path.contains pid then [] else [pid]))) ∧
      (hasEdge g (path.getLastD "") pid = false →
        hasNode g (path.getLastD "") = true →
        ∀ pre m post,
          candidates g (path.getLastD "") pid = pre ++ m :: post →
          (∀ c ∈ pre, bridgeScore g (path.getLastD "") pid c
            < bridgeScore g (path.getLastD "") pid m) →
          (∀ c ∈ post, bridgeScore g (path.getLastD "") pid c
            ≤ bridgeScore g (path.getLastD "") pid m) →
          stitchStep g path pid =
            Except.ok (appendNew path [path.getLastD "", m, pid])) ∧
      (∀ res, stitchStep g path pid = Except.ok res → path.Nodup → res.Nodup) := by
  intro g path pid hpos hnil hne
  have hlast_mem : path.getLastD "" ∈ path := mem_getLastD hne
  have hlc : path.contains (path.getLastD "") = true := by simpa using hlast_mem
  have hdirect : hasEdge g (path.getLastD "") pid = true →
      stitchStep g path pid =
        Except.ok (path ++ (if path.contains pid then [] else [pid])) := by
    intro hE
    simp only [stitchStep]
    rw [if_pos hE]
    simp only [List.filter_cons, List.filter_nil, hlc, Bool.not_true, Bool.false_eq_true,
      if_false]
    cases hpc : path.contains pid <;> simp [hpc]
  have herror : hasEdge g (path.getLastD "") pid = false →
      hasNode g (path.getLastD "") = false →
      stitchStep g path pid =
        Except.error ("The node " ++ path.getLastD "" ++ " is not in the graph.") := by
    intro hE hN
    have hEne : ¬ (hasEdge g (path.getLastD "") pid = true) := by
      rw [hE]
      exact Bool.false_ne_true
    have hNne : ¬ (hasNode g (path.getLastD "") = true) := by
      rw [hN]
      exact Bool.false_ne_true
    simp only [stitchStep]
    rw [if_neg hEne, if_neg hNne]
  have hnone : candidates g (path.getLastD "") pid = [] →
      bridgeChosen g (path.getLastD "") pid = none := by
    intro hcand
    unfold bridgeChosen
    rw [bestBridgeFold_eq, hcand]
    rfl
  have hnobridge : hasEdge g (path.getLastD "") pid = false →
      hasNode g (path.getLastD "") = true →
      bridgeChosen g (path.getLastD "") pid = none →
      stitchStep g path pid =
        Except.ok (path ++ (if path.contains pid then [] else [pid])) := by
    intro hE hN hB
    have hEne : ¬ (hasEdge g (path.getLastD "") pid = true) := by
      rw [hE]
      exact Bool.false_ne_true
    simp only [stitchStep]
    rw [if_neg hEne, if_pos hN, hB]
    cases hpc : path.contains pid <;> simp [hpc]
  have hbridge : ∀ m, hasEdge g (path.getLastD "") pid = false →
      hasNode g (path.getLastD "") = true →
      bridgeChosen g (path.getLastD "") pid = some m →
      stitchStep g path pid =
        Except.ok (appendNew path [path.getLastD "", m, pid]) := by
    intro m hE hN hB
    have hEne : ¬ (hasEdge g (path.getLastD "") pid = true) := by
      rw [hE]
      exact Bool.false_ne_true
    simp only [stitchStep]
    rw [if_neg hEne, if_pos hN, hB]
  have hchoose : ∀ pre m post,
      candidates g (path.getLastD "") pid = pre ++ m :: post →
      (∀ c ∈ pre, bridgeScore g (path.getLastD "") pid c
        < bridgeScore g (path.getLastD "") pid m) →
      (∀ c ∈ post, bridgeScore g (path.getLastD "") pid c
        ≤ bridgeScore g (path.getLastD "") pid m) →
      bridgeChosen g (path.getLastD "") pid = some m := by
    intro pre m post hdecomp hpre hpost
    have hm_mem : m ∈ candidates g (path.getLastD "") pid := by
      rw [hdecomp]
      exact List.mem_append_right _ (List.mem_cons_self _ _)
    have hv : (0 : Rat) < bridgeScore g (path.getLastD "") pid m :=
      bridgeScore_pos hpos hm_mem
    have hm_ne : m ≠ "" := ne_empty_of_mem_adjacency hnil (candidates_spec hm_mem).1
    unfold bridgeChosen
    rw [bestBridgeFold_eq, hdecomp,
      foldl_maxStep_first_max _ pre m post none 0 hv hpre hpost]
    simp [hm_ne]
  have happend_nodup : path.Nodup →
      (path ++ (if path.contains pid then [] else [pid])).Nodup := by
    intro hnd
    cases hpc : path.contains pid
    · rw [if_neg Bool.false_ne_true]
      refine List.nodup_append.2 ⟨hnd, List.nodup_singleton _, ?_⟩
      intro a ha hb
      rw [List.mem_singleton] at hb
      subst hb
      exact absurd ha (by simpa using hpc)
    · rw [if_pos rfl]
      simpa using hnd
  refine ⟨hdirect, herror, fun hE hN hcand => hnobridge hE hN (hnone hcand),
    fun hE hN pre m post hd hp1 hp2 => hbridge m hE hN (hchoose pre m post hd hp1 hp2), ?_⟩
  intro res hres hnd
  by_cases hE : hasEdge g (path.getLastD "") pid = true
  · rw [hdirect hE] at hres
    injection hres with h
    exact h ▸ happend_nodup hnd
  · rw [Bool.not_eq_true] at hE
    by_cases hN : hasNode g (path.getLastD "") = true
    · cases hB : bridgeChosen g (path.getLastD "") pid with
      | some m =>
        rw [hbridge m hE hN hB] at hres
        injection hres with h
        exact h ▸ appendNew_nodup _ path hnd
      | none =>
        rw [hnobridge hE hN hB] at hres
        injection hres with h
        exact h ▸ happend_nodup hnd
    · rw [Bool.not_eq_true] at hN
      rw [herror hE hN] at hres
      exact Except.noConfusion hres

/-- The graph used to instantiate claim C1: two papers bridged by one
concept node. -/
def c1g : Graph :=
  ⟨[("A", ⟨some "Paper A", some "paper"⟩), ("B", ⟨some "Paper B", some "paper"⟩),
      ("c", ⟨some "c", some "concept"⟩)],
    [("A", "c", ⟨some "mentions", 2⟩), ("c", "B", ⟨some "mentions", 3⟩)]⟩

/-- Witness for claim C1 (amended) at a concrete input: with no direct
edge from `"A"` to `"B"` and `"A"` a node of the graph, the stitching
inserts the unique bridging concept. -/
theorem claim_C1_stitching_witness :
    stitchStep c1g ["A"] "B" =
      Except.ok (appendNew ["A"] [(["A"] : List String).getLastD "", "c", "B"]) :=
  (claim_C1_stitching c1g ["A"] "B"
      (by intro e he; fin_cases he <;> norm_num)
      (by intro e he; fin_cases he <;> simp)
      (by simp)).2.2.2.1
    (by decide) (by decide) [] "c" [] (by decide) (by simp) (by simp)

/-- Claim C2 amended: the stitching loop runs before any synthesis and
may itself raise `NetworkXError`; on every input where it succeeds —
in particular whenever the graph contains the stops it visits — a
failing synthesis call never raises: `answer_query` returns the failure
note `"(LLM call failed: <reason>)"` followed by the first 500
characters of the prompt plus the metadata footer — not the
pre-computed heuristic text — and the sources, path and subgraph
components are the same for every synthesis outcome (success, failure
or unconfigured). -/
theorem claim_C2_silent_failure :
    ∀ (g : Graph) (question : String) (retrieved : List (Chunk × Rat)) (e : String)
      (path0 : List String),
      retrieved ≠ [] →
      stitchPath g (paperIdsOrdered retrieved) = Except.ok path0 →
      (∀ o : Option LlmOutcome, ∃ ans : String,
        answer_query g question retrieved o =
          Except.ok ⟨ans, sourcesOf retrieved, path0,
            if path0.isEmpty then ⟨[], []⟩ else subgraph_for_path g path0⟩) ∧
      answer_query g question retrieved (some (.fail e)) =
        Except.ok ⟨"(LLM call failed: " ++ e ++ ")\n"
            ++ strTake (promptOf question (sourcesOf retrieved) path0) 500
            ++ metadataFooter (sourcesOf retrieved) path0,
          sourcesOf retrieved, path0,
          if path0.isEmpty then ⟨[], []⟩ else subgraph_for_path g path0⟩ := by
  intro g question retrieved e path0 hne hstitch
  have hsrc : (sourcesOf retrieved).isEmpty = false := by
    cases retrieved with
    | nil => exact absurd rfl hne
    | cons x xs => rfl
  constructor
  · intro o
    refine ⟨if (sourcesOf retrieved).isEmpty then noContentMsg
      else
        match o with
        | some outcome =>
            call_groq (promptOf question (sourcesOf retrieved) path0) outcome
              ++ metadataFooter (sourcesOf retrieved) path0
        | none =>
            "## ⚠️ LLM Not Configured\n\n" ++ heuristicText (sourcesOf retrieved) path0
              ++ "\n\n*Set GROQ_API_KEY environment variable to enable AI-powered synthesis.*",
      ?_⟩
    simp only [answer_query, hstitch]
  · simp only [answer_query, hstitch, hsrc, Bool.false_eq_true, if_false, call_groq]

/-- The retrieval result used to exhibit claim C2's failure path. -/
def c2retr : List (Chunk × Rat) :=
  [(⟨"A", "Paper A", "A_0", "ta"⟩, 1), (⟨"B", "Paper B", "B_0", "tb"⟩, 0)]

/-- The graph used to exhibit claim C2's failure path: both retrieved
papers are nodes (with no connecting edge), so the stitching loop's
neighbor scan is defined and the loop succeeds with path `["A", "B"]`
before the synthesis call is attempted. -/
def c2g : Graph :=
  ⟨[("A", ⟨some "Paper A", some "paper"⟩), ("B", ⟨some "Paper B", some "paper"⟩)], []⟩

/-- Witness for claim C2 (amended) at a concrete input whose graph
contains both stops, so the stitching succeeds. -/
theorem claim_C2_silent_failure_witness :
    (∀ o : Option LlmOutcome, ∃ ans : String,
      answer_query c2g "q" c2retr o =
        Except.ok ⟨ans, sourcesOf c2retr, ["A", "B"],
          if (["A", "B"] : List String).isEmpty then ⟨[], []⟩
          else subgraph_for_path c2g ["A", "B"]⟩) ∧
    answer_query c2g "q" c2retr (some (.fail "boom")) =
      Except.ok ⟨"(LLM call failed: " ++ "boom" ++ ")\n"
          ++ strTake (promptOf "q" (sourcesOf c2retr) ["A", "B"]) 500
          ++ metadataFooter (sourcesOf c2retr) ["A", "B"],
        sourcesOf c2retr, ["A", "B"],
        if (["A", "B"] : List String).isEmpty then ⟨[], []⟩
        else subgraph_for_path c2g ["A", "B"]⟩ :=
  claim_C2_silent_failure c2g "q" c2retr "boom" ["A", "B"] (by simp [c2retr]) (by decide)

set_option maxRecDepth 40000 in
/-- Counterexample to claim C2 as stated: on this concrete failing call
(both retrieved papers are nodes of the graph, so the stitching loop
succeeds with path `["A", "B"]` and the run reaches the synthesis call)
the returned answer text is the failure note plus a prompt prefix and
metadata footer; the pre-computed heuristic line is NOT embedded in it
anywhere (checked over every offset). -/
theorem claim_C2_counterexample :
    ¬ occursIn (heuristicText (sourcesOf c2retr) ["A", "B"])
        ((((answer_query c2g "q" c2retr (some (.fail "boom"))).toOption).map
          (fun r => r.answer)).getD "") := by
  intro h
  have hc := containsSub_of_occursIn h
  have hf : containsSub (heuristicText (sourcesOf c2retr) ["A", "B"]).data
      (((((answer_query c2g "q" c2retr (some (.fail "boom"))).toOption).map
        (fun r => r.answer)).getD "")).data = false := by
    decide
  rw [hf] at hc
  exact Bool.false_ne_true hc

/-- `x` is a concept node id. -/
def conceptish (x : String) : Prop := ∃ s, x = "concept::" ++ s

/-- Invariant after the paper-node and mentions phases: the node list
is the paper nodes (in order) followed by concept nodes, and every edge
runs from a paper id to a concept id. -/
def BuildInv (papers : List Paper) (g : Graph) : Prop :=
  (∃ cn, g.nodes =
      papers.map (fun p => (p.paper_id, (⟨some p.title, some "paper"⟩ : NodeData))) ++ cn ∧
    ∀ x ∈ cn, conceptish x.1) ∧
  (∀ e ∈ g.edges, e.1 ∈ papers.map (·.paper_id) ∧ conceptish e.2.1)

theorem hasNode_addNode_self (g : Graph) (n : String) (d : NodeData) :
    hasNode (addNode g n d) n = true := by
  unfold addNode
  split
  · next h =>
    rcases List.any_eq_true.1 h with ⟨p, hp, hpn⟩
    refine List.any_eq_true.2 ⟨(n, d), ?_, by simp⟩
    exact List.mem_map.2 ⟨p, hp, by rw [if_pos hpn]⟩
  · exact List.any_eq_true.2 ⟨(n, d), List.mem_append_right _ (List.mem_singleton.2 rfl), by simp⟩

theorem foldl_addNode_map {α : Type} (key : α → String) (dat : α → NodeData) (l : List α) :
    ∀ g : Graph, (∀ x ∈ l, hasNode g (key x) = false) → (l.map key).Nodup →
      l.foldl (fun g x => addNode g (key x) (dat x)) g =
        { g with nodes := g.nodes ++ l.map (fun x => (key x, dat x)) } := by
  induction l with
  | nil => intro g _ _; cases g; simp
  | cons x xs ih =>
    intro g hdisj hnd
    rw [List.map_cons, List.nodup_cons] at hnd
    have hx : hasNode g (key x) = false := hdisj x (List.mem_cons_self x xs)
    have hstep : addNode g (key x) (dat x) =
        { g with nodes := g.nodes ++ [(key x, dat x)] } := by
      unfold addNode
      rw [if_neg (by simp [hx])]
    rw [List.foldl_cons, hstep]
    have hdisj' : ∀ y ∈ xs,
        hasNode { g with nodes := g.nodes ++ [(key x, dat x)] } (key y) = false := by
      intro y hy
      have h1 : hasNode g (key y) = false := hdisj y (List.mem_cons_of_mem x hy)
      have h2 : key x ≠ key y := fun hc => hnd.1 (hc ▸ List.mem_map_of_mem key hy)
      simp only [hasNode, List.any_append, Bool.or_eq_false_iff]
      exact ⟨by simpa [hasNode] using h1, by simp [h2]⟩
    rw [ih _ hdisj' hnd.2]
    exact graph_ext (by simp) rfl

theorem buildGraph_phase0 (papers : List Paper)
    (hnd : (papers.map (·.paper_id)).Nodup) :
    papers.foldl (fun g p => addNode g p.paper_id ⟨some p.title, some "paper"⟩) emptyGraph =
      (⟨papers.map (fun p => (p.paper_id, (⟨some p.title, some "paper"⟩ : NodeData))), []⟩ :
        Graph) := by
  have h2 := foldl_addNode_map (·.paper_id) (fun p => ⟨some p.title, some "paper"⟩) papers
    emptyGraph (fun _ _ => rfl) hnd
  exact h2.trans (graph_ext (by simp [emptyGraph]) rfl)

theorem mentionsStep_inv {papers : List Paper} {g : Graph} {pid kw : String}
    (hinv : BuildInv papers g) (hpid : pid ∈ papers.map (·.paper_id)) :
    BuildInv papers (mentionsStep g pid kw) := by
  obtain ⟨⟨cn, hnodes, hcn⟩, hedges⟩ := hinv
  simp only [mentionsStep]
  by_cases hc : hasNode g ("concept::" ++ kw.toLower) = true
  · rw [if_pos hc]
    have hs : hasNode g pid = true := by
      rw [hasNode_iff_mem_keys, hnodes, List.map_append, List.map_map]
      exact List.mem_append_left _ hpid
    constructor
    · refine ⟨cn, ?_, hcn⟩
      rw [add_edge_nodes_stable _ _ hs hc]
      exact hnodes
    · intro e he
      rcases add_edge_endpointPairs _ _ e he with hnew | ⟨e0, he0, heq⟩
      · rw [Prod.mk.injEq] at hnew
        exact ⟨hnew.1 ▸ hpid, hnew.2 ▸ ⟨kw.toLower, rfl⟩⟩
      · rw [Prod.mk.injEq] at heq
        exact ⟨heq.1 ▸ (hedges e0 he0).1, heq.2 ▸ (hedges e0 he0).2⟩
  · rw [if_neg hc]
    rw [Bool.not_eq_true] at hc
    have hanodes : (addNode g ("concept::" ++ kw.toLower) ⟨some kw, some "concept"⟩).nodes =
        g.nodes ++ [("concept::" ++ kw.toLower, ⟨some kw, some "concept"⟩)] := by
      unfold addNode
      rw [if_neg (by simp [hc])]
    have hs : hasNode (addNode g ("concept::" ++ kw.toLower) ⟨some kw, some "concept"⟩)
        pid = true := by
      rw [hasNode_iff_mem_keys, hanodes, List.map_append, hnodes, List.map_append,
        List.map_map]
      exact List.mem_append_left _ (List.mem_append_left _ hpid)
    have ht := hasNode_addNode_self g ("concept::" ++ kw.toLower) ⟨some kw, some "concept"⟩
    have haedges : (addNode g ("concept::" ++ kw.toLower) ⟨some kw, some "concept"⟩).edges =
        g.edges := by
      unfold addNode
      split <;> rfl
    constructor
    · refine ⟨cn ++ [("concept::" ++ kw.toLower, ⟨some kw, some "concept"⟩)], ?_, ?_⟩
      · rw [add_edge_nodes_stable _ _ hs ht, hanodes, hnodes, List.append_assoc]
      · intro x hx
        rcases List.mem_append.1 hx with hx | hx
        · exact hcn x hx
        · rw [List.mem_singleton] at hx
          subst hx
          exact ⟨kw.toLower, rfl⟩
    · intro e he
      rcases add_edge_endpointPairs _ _ e he with hnew | ⟨e0, he0, heq⟩
      · rw [Prod.mk.injEq] at hnew
        exact ⟨hnew.1 ▸ hpid, hnew.2 ▸ ⟨kw.toLower, rfl⟩⟩
      · rw [haedges] at he0
        rw [Prod.mk.injEq] at heq
        exact ⟨heq.1 ▸ (hedges e0 he0).1, heq.2 ▸ (hedges e0 he0).2⟩

theorem mentionsPhase_inv (papers : List Paper) (phr : List (String × List String))
    (hph : ∀ pk ∈ phr, pk.1 ∈ papers.map (·.paper_id)) :
    ∀ g : Graph, BuildInv papers g → BuildInv papers (mentionsPhase phr g) := by
  induction phr with
  | nil => intro g hinv; exact hinv
  | cons pk phr ih =>
    intro g hinv
    unfold mentionsPhase
    rw [List.foldl_cons]
    refine ih (fun x hx => hph x (List.mem_cons_of_mem pk hx)) _ ?_
    have hpk := hph pk (List.mem_cons_self pk phr)
    clear ih hph
    induction pk.2 generalizing g with
    | nil => exact hinv
    | cons kw kws ihk =>
      rw [List.foldl_cons]
      exact ihk _ (mentionsStep_inv hinv hpk)

theorem hasNode_congr_nodes {g1 g2 : Graph} (h : g1.nodes = g2.nodes) (n : String) :
    hasNode g1 n = hasNode g2 n := by
  unfold hasNode
  rw [h]

theorem relatedStep_hasNode {phr : List (String × List String)} {g : Graph}
    {p1 p2 n : String} (h : hasNode g n = true) :
    hasNode (relatedStep phr g p1 p2) n = true := by
  simp only [relatedStep]
  split
  · exact hasNode_add_edge _ _ h
  · exact h

theorem relatedStep_nodes {phr : List (String × List String)} {g : Graph} {p1 p2 : String}
    (h1 : hasNode g p1 = true) (h2 : hasNode g p2 = true) :
    (relatedStep phr g p1 p2).nodes = g.nodes := by
  simp only [relatedStep]
  split
  · exact add_edge_nodes_stable _ _ h1 h2
  · rfl

theorem innerFold_nodes (phr : List (String × List String)) (p : String) (qs : List Paper) :
    ∀ g : Graph, hasNode g p = true → (∀ x ∈ qs, hasNode g x.paper_id = true) →
      (qs.foldl (fun g q => relatedStep phr g p q.paper_id) g).nodes = g.nodes := by
  induction qs with
  | nil => intro g _ _; rfl
  | cons q qs ih =>
    intro g hp hqs
    rw [List.foldl_cons]
    have hq := hqs q (List.mem_cons_self q qs)
    have hnodes : (relatedStep phr g p q.paper_id).nodes = g.nodes := relatedStep_nodes hp hq
    rw [ih _ (relatedStep_hasNode hp)
      (fun x hx => relatedStep_hasNode (hqs x (List.mem_cons_of_mem q hx)))]
    exact hnodes

theorem relatedPhase_nodes (phr : List (String × List String)) :
    ∀ (ps : List Paper) (g : Graph),
      (∀ x ∈ ps, hasNode g x.paper_id = true) →
      (relatedPhase phr g ps).nodes = g.nodes := by
  intro ps
  induction ps with
  | nil => intro g _; rfl
  | cons p ps ih =>
    intro g hall
    simp only [relatedPhase]
    have hinner := innerFold_nodes phr p.paper_id ps g (hall p (List.mem_cons_self p ps))
      (fun x hx => hall x (List.mem_cons_of_mem p hx))
    have hHas : ∀ x ∈ ps,
        hasNode (ps.foldl (fun g q => relatedStep phr g p.paper_id q.paper_id) g)
          x.paper_id = true := by
      intro x hx
      rw [hasNode_congr_nodes hinner]
      exact hall x (List.mem_cons_of_mem p hx)
    rw [ih _ hHas, hinner]

/-- The endpoint shape of every edge of a finished build: a `mentions`
edge from a paper to a concept, or a `related` edge between two
distinct papers. -/
def FinalEdge (ids : List String) (e : String × String × EdgeData) : Prop :=
  (e.1 ∈ ids ∧ conceptish e.2.1) ∨ (e.1 ∈ ids ∧ e.2.1 ∈ ids ∧ e.1 ≠ e.2.1)

theorem finalEdge_transfer {ids : List String} {e e0 : String × String × EdgeData}
    (h : (e.1, e.2.1) = (e0.1, e0.2.1)) (h0 : FinalEdge ids e0) : FinalEdge ids e := by
  rw [Prod.mk.injEq] at h
  unfold FinalEdge
  rw [h.1, h.2]
  exact h0

theorem relatedStep_finalEdge {ids : List String} {phr : List (String × List String)}
    {g : Graph} {p1 p2 : String} (hp1 : p1 ∈ ids) (hp2 : p2 ∈ ids) (hne : p1 ≠ p2)
    (hall : ∀ e ∈ g.edges, FinalEdge ids e) :
    ∀ e ∈ (relatedStep phr g p1 p2).edges, FinalEdge ids e := by
  intro e he
  simp only [relatedStep] at he
  split at he
  · rcases add_edge_endpointPairs _ _ e he with hnew | ⟨e0, he0, heq⟩
    · rw [Prod.mk.injEq] at hnew
      exact Or.inr ⟨hnew.1 ▸ hp1, hnew.2 ▸ hp2, by rw [hnew.1, hnew.2]; exact hne⟩
    · exact finalEdge_transfer heq (hall e0 he0)
  · exact hall e he

theorem innerFold_finalEdge {ids : List String} (phr : List (String × List String))
    (p : String) (qs : List Paper) :
    ∀ g : Graph, p ∈ ids → (∀ x ∈ qs, x.paper_id ∈ ids) →
      (∀ x ∈ qs, p ≠ x.paper_id) →
      (∀ e ∈ g.edges, FinalEdge ids e) →
      ∀ e ∈ (qs.foldl (fun g q => relatedStep phr g p q.paper_id) g).edges, FinalEdge ids e := by
  induction qs with
  | nil => intro g _ _ _ hall; exact hall
  | cons q qs ih =>
    intro g hp hqs hne hall
    rw [List.foldl_cons]
    exact ih _ hp (fun x hx => hqs x (List.mem_cons_of_mem q hx))
      (fun x hx => hne x (List.mem_cons_of_mem q hx))
      (relatedStep_finalEdge hp (hqs q (List.mem_cons_self q qs))
        (hne q (List.mem_cons_self q qs)) hall)

theorem relatedPhase_finalEdge {ids : List String} (phr : List (String × List String)) :
    ∀ (ps : List Paper) (g : Graph),
      (∀ x ∈ ps, x.paper_id ∈ ids) → (ps.map (·.paper_id)).Nodup →
      (∀ e ∈ g.edges, FinalEdge ids e) →
      ∀ e ∈ (relatedPhase phr g ps).edges, FinalEdge ids e := by
  intro ps
  induction ps with
  | nil => intro g _ _ hall; exact hall
  | cons p ps ih =>
    intro g hids hnd hall
    rw [List.map_cons, List.nodup_cons] at hnd
    simp only [relatedPhase]
    refine ih _ (fun x hx => hids x (List.mem_cons_of_mem p hx)) hnd.2 ?_
    refine innerFold_finalEdge phr p.paper_id ps g (hids p (List.mem_cons_self p ps))
      (fun x hx => hids x (List.mem_cons_of_mem p hx)) ?_ hall
    intro x hx hc
    exact hnd.1 (hc ▸ List.mem_map_of_mem (·.paper_id) hx)

theorem edgeState_relatedStep_other {phr : List (String × List String)} {g : Graph}
    {p1 p2 a b : String} (h : pairMatches p1 p2 a b = false) :
    edgeState (relatedStep phr g p1 p2) a b = edgeState g a b := by
  simp only [relatedStep]
  split
  · exact edgeState_add_edge_frame _ _ h
  · rfl

theorem edgeState_innerFold_other (phr : List (String × List String)) (p a b : String)
    (qs : List Paper) :
    ∀ g : Graph, (∀ x ∈ qs, pairMatches p x.paper_id a b = false) →
      edgeState (qs.foldl (fun g q => relatedStep phr g p q.paper_id) g) a b =
        edgeState g a b := by
  induction qs with
  | nil => intro g _; rfl
  | cons q qs ih =>
    intro g hall
    rw [List.foldl_cons]
    rw [ih _ (fun x hx => hall x (List.mem_cons_of_mem q hx))]
    exact edgeState_relatedStep_other (hall q (List.mem_cons_self q qs))

theorem edgeState_relatedPhase_other (phr : List (String × List String)) (a b : String) :
    ∀ (ps : List Paper) (g : Graph),
      (∀ r ∈ ps, ∀ x ∈ ps, pairMatches r.paper_id x.paper_id a b = false) →
      edgeState (relatedPhase phr g ps) a b = edgeState g a b := by
  intro ps
  induction ps with
  | nil => intro g _; rfl
  | cons p ps ih =>
    intro g hall
    simp only [relatedPhase]
    rw [ih _ (fun r hr x hx =>
      hall r (List.mem_cons_of_mem p hr) x (List.mem_cons_of_mem p hx))]
    exact edgeState_innerFold_other phr p.paper_id a b ps g
      (fun x hx => hall p (List.mem_cons_self p ps) x (List.mem_cons_of_mem p hx))

theorem edgeState_relatedStep_same (phr : List (String × List String)) {g : Graph}
    {a b : String} (h0 : countPair g a b = 0) :
    edgeState (relatedStep phr g a b) a b =
      if interSize (phraseLookup phr a) (phraseLookup phr b) = 0 then (0, 0, none)
      else (1, (interSize (phraseLookup phr a) (phraseLookup phr b) : Rat),
        some "related") := by
  simp only [relatedStep]
  by_cases hn : interSize (phraseLookup phr a) (phraseLookup phr b) = 0
  · rw [if_neg (by simp [hn]), if_pos hn]
    exact edgeState_of_zero h0
  · rw [if_pos hn, if_neg hn]
    have hne := countPair_eq_zero_iff.1 h0
    have hcp : countPair
        (add_edge g a b "related" (interSize (phraseLookup phr a) (phraseLookup phr b) : Rat))
        a b = 1 := by
      rw [countPair_add_edge_of_not_has _ _ a b hne, h0, if_pos (pairMatches_refl a b)]
    have hd : edgeData
        (add_edge g a b "related" (interSize (phraseLookup phr a) (phraseLookup phr b) : Rat))
        a b = some ⟨some "related",
          (interSize (phraseLookup phr a) (phraseLookup phr b) : Rat)⟩ := by
      rw [edgeData_add_edge_same, if_neg (by simp [hne])]
    unfold edgeState weightOf relationOf
    rw [hcp, hd]
    rfl

theorem edgeState_relatedPhase_hit (phr : List (String × List String)) :
    ∀ (pre : List Paper) (p : Paper) (mid : List Paper) (q : Paper) (post : List Paper)
      (g : Graph),
      ((pre ++ p :: mid ++ q :: post).map (·.paper_id)).Nodup →
      countPair g p.paper_id q.paper_id = 0 →
      edgeState (relatedPhase phr g (pre ++ p :: mid ++ q :: post))
          p.paper_id q.paper_id =
        (if interSize (phraseLookup phr p.paper_id) (phraseLookup phr q.paper_id) = 0
          then (0, 0, none)
          else (1,
            (interSize (phraseLookup phr p.paper_id) (phraseLookup phr q.paper_id) : Rat),
            some "related")) := by
  intro pre
  induction pre with
  | nil =>
    intro p mid q post g hnd h0
    rw [List.nil_append, List.cons_append] at hnd ⊢
    rw [List.map_cons, List.nodup_cons] at hnd
    have hb_mem : q.paper_id ∈ (mid ++ q :: post).map (·.paper_id) :=
      List.mem_map_of_mem _ (by simp)
    have hab : p.paper_id ≠ q.paper_id := fun hc => hnd.1 (hc ▸ hb_mem)
    have hnd2 := hnd.2
    rw [List.map_append, List.map_cons] at hnd2
    rcases List.nodup_append.1 hnd2 with ⟨hndmid, hndq, hdisj⟩
    have hqmid : q.paper_id ∉ mid.map (·.paper_id) := fun hc =>
      hdisj hc (List.mem_cons_self _ _)
    have hqpost : q.paper_id ∉ post.map (·.paper_id) := (List.nodup_cons.1 hndq).1
    have hmidskip : ∀ x ∈ mid,
        pairMatches p.paper_id x.paper_id p.paper_id q.paper_id = false := by
      intro x hx
      have hxb : x.paper_id ≠ q.paper_id := fun hc =>
        hqmid (hc ▸ List.mem_map_of_mem (·.paper_id) hx)
      simp [pairMatches, hxb, hab]
    have hpostskip : ∀ x ∈ post,
        pairMatches p.paper_id x.paper_id p.paper_id q.paper_id = false := by
      intro x hx
      have hxb : x.paper_id ≠ q.paper_id := fun hc =>
        hqpost (hc ▸ List.mem_map_of_mem (·.paper_id) hx)
      simp [pairMatches, hxb, hab]
    have hrestskip : ∀ r ∈ mid ++ q :: post, ∀ x ∈ mid ++ q :: post,
        pairMatches r.paper_id x.paper_id p.paper_id q.paper_id = false := by
      intro r hr x hx
      refine pairMatches_false_of_ne_a (fun hc => hnd.1 ?_) (fun hc => hnd.1 ?_)
      · exact hc ▸ List.mem_map_of_mem (·.paper_id) hr
      · exact hc ▸ List.mem_map_of_mem (·.paper_id) hx
    simp only [relatedPhase]
    rw [edgeState_relatedPhase_other phr p.paper_id q.paper_id _ _ hrestskip]
    rw [List.foldl_append, List.foldl_cons]
    have hstate1 := edgeState_innerFold_other phr p.paper_id p.paper_id q.paper_id mid g
      hmidskip
    have h01 : countPair
        (mid.foldl (fun g q => relatedStep phr g p.paper_id q.paper_id) g)
        p.paper_id q.paper_id = 0 := by
      have := congrArg (fun st => st.1) hstate1
      simpa [edgeState, h0] using this
    rw [edgeState_innerFold_other phr p.paper_id p.paper_id q.paper_id post _ hpostskip]
    exact edgeState_relatedStep_same phr h01
  | cons r pre ih =>
    intro p mid q post g hnd h0
    simp only [List.cons_append] at hnd ⊢
    rw [List.map_cons, List.nodup_cons] at hnd
    have ha_mem : p.paper_id ∈ (pre ++ p :: mid ++ q :: post).map (·.paper_id) :=
      List.mem_map_of_mem _ (by simp)
    have hb_mem : q.paper_id ∈ (pre ++ p :: mid ++ q :: post).map (·.paper_id) :=
      List.mem_map_of_mem _ (by simp)
    have hra : r.paper_id ≠ p.paper_id := fun hc => hnd.1 (hc ▸ ha_mem)
    have hrb : r.paper_id ≠ q.paper_id := fun hc => hnd.1 (hc ▸ hb_mem)
    have hskip : ∀ x ∈ pre ++ p :: mid ++ q :: post,
        pairMatches r.paper_id x.paper_id p.paper_id q.paper_id = false :=
      fun x _ => pairMatches_false_left hra hrb
    simp only [relatedPhase]
    have hstate := edgeState_innerFold_other phr r.paper_id p.paper_id q.paper_id
      (pre ++ p :: mid ++ q :: post) g hskip
    have h0' : countPair
        ((pre ++ p :: mid ++ q :: post).foldl
          (fun g q => relatedStep phr g r.paper_id q.paper_id) g)
        p.paper_id q.paper_id = 0 := by
      have := congrArg (fun st => st.1) hstate
      simpa [edgeState, h0] using this
    exact ih p mid q post _ hnd.2 h0'

theorem countPair_zero_of_conceptish_second {g : Graph} {ids : List String} {a b : String}
    (hedges : ∀ e ∈ g.edges, e.1 ∈ ids ∧ conceptish e.2.1)
    (ha : ∀ s, a ≠ "concept::" ++ s) (hb : ∀ s, b ≠ "concept::" ++ s) :
    countPair g a b = 0 := by
  rw [countPair_eq_zero_iff]
  rw [hasEdge_eq_false_iff]
  intro e he
  rcases (hedges e he).2 with ⟨s, hs⟩
  have h1 : e.2.1 ≠ a := fun hc => ha s (hc.symm.trans hs)
  have h2 : e.2.1 ≠ b := fun hc => hb s (hc.symm.trans hs)
  simp [pairMatches, h1, h2]

theorem not_concept_id {x : String} (h : x.length < 9) : ∀ s, x ≠ "concept::" ++ s := by
  intro s heq
  have hl := congrArg String.length heq
  rw [String.length_append] at hl
  have h9 : "concept::".length = 9 := rfl
  omega

theorem phraseLookup_map (f : String → List String) :
    ∀ (papers : List Paper) (p : Paper), (papers.map (·.paper_id)).Nodup → p ∈ papers →
      phraseLookup (papers.map (fun r => (r.paper_id, f r.paper_id))) p.paper_id =
        f p.paper_id := by
  intro papers
  induction papers with
  | nil => intro p _ hp; cases hp
  | cons r rest ih =>
    intro p hnd hp
    rw [List.map_cons, List.nodup_cons] at hnd
    unfold phraseLookup
    rw [List.map_cons, List.filter_cons]
    by_cases hr : (r.paper_id == p.paper_id) = true
    · rw [if_pos hr]
      have hrp : r.paper_id = p.paper_id := by simpa using hr
      have hrest : (rest.map (fun r => (r.paper_id, f r.paper_id))).filter
          (fun q0 => q0.1 == p.paper_id) = [] := by
        rw [List.filter_eq_nil_iff]
        intro x hx
        rcases List.mem_map.1 hx with ⟨y, hy, rfl⟩
        have hyp : y.paper_id ≠ p.paper_id := fun hc =>
          hnd.1 (hrp ▸ hc ▸ List.mem_map_of_mem (·.paper_id) hy)
        simpa using hyp
      rw [hrest]
      simp [hrp]
    · rw [if_neg hr]
      have hp' : p ∈ rest := by
        rcases List.mem_cons.1 hp with rfl | hp'
        · exact absurd (by simp) hr
        · exact hp'
      exact ih p hnd.2 hp'

theorem contains_pair (a b x : String) : ([a, b]).contains x = (x == a || x == b) := by
  simp only [List.contains_cons, List.contains_nil, Bool.or_false]

theorem contains_pair_and_eq_pairMatches {a b : String} (hab : a ≠ b) :
    ∀ x y : String, x ≠ y →
      (([a, b]).contains x && ([a, b]).contains y) = pairMatches x y a b := by
  intro x y hxy
  by_cases hxa : x = a <;> by_cases hxb : x = b <;> by_cases hya : y = a <;>
    by_cases hyb : y = b <;> simp_all [contains_pair, pairMatches]

theorem countP_or_count (a b : String) (hab : a ≠ b) :
    ∀ l : List String, l.countP (fun x => [a, b].contains x) = l.count a + l.count b := by
  intro l
  induction l with
  | nil => rfl
  | cons x xs ih =>
    rw [List.countP_cons, List.count_cons, List.count_cons, ih, contains_pair]
    by_cases hxa : x = a
    · subst hxa
      rw [if_pos (by simp), if_pos (by simp), if_neg (by simp [hab])]
      omega
    · by_cases hxb : x = b
      · subst hxb
        rw [if_pos (by simp), if_neg (by simp [hxa]), if_pos (by simp)]
        omega
      · rw [if_neg (by simp [hxa, hxb]), if_neg (by simp [hxa]), if_neg (by simp [hxb])]
        omega

theorem countP_pair_eq_two {l : List String} {a b : String} (hnd : l.Nodup)
    (ha : a ∈ l) (hb : b ∈ l) (hab : a ≠ b) :
    l.countP (fun x => [a, b].contains x) = 2 := by
  rw [countP_or_count a b hab, List.count_eq_one_of_mem hnd ha,
    List.count_eq_one_of_mem hnd hb]

/-- Claim C7: in a built graph, two documents get exactly one `related`
edge, of weight the size of the intersection of their extracted
keyphrase sets, when that intersection is non-empty, and no edge at all
when it is empty; and for two documents sharing a keyphrase, the
induced subgraph over exactly those two document ids has 2 nodes and 1
edge (the shared concept node is excluded since it is not in the path
list).  Hypotheses: distinct paper ids that do not collide with the
`concept::` namespace — true of every real corpus. -/
theorem claim_C7_related_edges :
    ∀ (extract : String → List String) (papers : List Paper) (chunks : List Chunk)
      (pre : List Paper) (p : Paper) (mid : List Paper) (q : Paper) (post : List Paper),
      papers = pre ++ p :: mid ++ q :: post →
      (papers.map (·.paper_id)).Nodup →
      (∀ r ∈ papers, ∀ s, r.paper_id ≠ "concept::" ++ s) →
      (interSize (extract (paperText chunks p.paper_id))
          (extract (paperText chunks q.paper_id)) = 0 →
        countPair (buildGraph extract papers chunks) p.paper_id q.paper_id = 0) ∧
      (interSize (extract (paperText chunks p.paper_id))
          (extract (paperText chunks q.paper_id)) ≠ 0 →
        countPair (buildGraph extract papers chunks) p.paper_id q.paper_id = 1 ∧
        weightOf (buildGraph extract papers chunks) p.paper_id q.paper_id =
          (interSize (extract (paperText chunks p.paper_id))
            (extract (paperText chunks q.paper_id)) : Rat) ∧
        relationOf (buildGraph extract papers chunks) p.paper_id q.paper_id =
          some "related" ∧
        (subgraph_for_path (buildGraph extract papers chunks)
          [p.paper_id, q.paper_id]).nodes.length = 2 ∧
        (subgraph_for_path (buildGraph extract papers chunks)
          [p.paper_id, q.paper_id]).edges.length = 1) := by
  intro extract papers chunks pre p mid q post hsplit hnd hnc
  have hp_mem : p ∈ papers := by rw [hsplit]; simp
  have hq_mem : q ∈ papers := by rw [hsplit]; simp
  have ha_nc : ∀ s, p.paper_id ≠ "concept::" ++ s := hnc p hp_mem
  have hb_nc : ∀ s, q.paper_id ≠ "concept::" ++ s := hnc q hq_mem
  have hamem : p.paper_id ∈ papers.map (·.paper_id) := List.mem_map.2 ⟨p, hp_mem, rfl⟩
  have hbmem : q.paper_id ∈ papers.map (·.paper_id) := List.mem_map.2 ⟨q, hq_mem, rfl⟩
  have hab : p.paper_id ≠ q.paper_id := by
    have hnd' := hnd
    rw [hsplit, List.map_append, List.map_append, List.map_cons, List.map_cons] at hnd'
    rcases List.nodup_append.1 hnd' with ⟨_, _, hdisj⟩
    intro hc
    exact hdisj (List.mem_append_right _ (List.mem_cons_self _ _))
      (hc ▸ List.mem_cons_self _ _)
  have hG : buildGraph extract papers chunks =
      relatedPhase (papers.map (fun r => (r.paper_id, extract (paperText chunks r.paper_id))))
        (mentionsPhase
          (papers.map (fun r => (r.paper_id, extract (paperText chunks r.paper_id))))
          (papers.foldl (fun g r => addNode g r.paper_id ⟨some r.title, some "paper"⟩)
            emptyGraph))
        papers := rfl
  have hinv0 : BuildInv papers
      (papers.foldl (fun g r => addNode g r.paper_id ⟨some r.title, some "paper"⟩)
        emptyGraph) := by
    rw [buildGraph_phase0 papers hnd]
    exact ⟨⟨[], (List.append_nil _).symm, fun x hx => absurd hx (List.not_mem_nil x)⟩,
      fun e he => absurd he (List.not_mem_nil e)⟩
  have hph : ∀ pk ∈ papers.map (fun r => (r.paper_id, extract (paperText chunks r.paper_id))),
      pk.1 ∈ papers.map (·.paper_id) := by
    intro pk hpk
    rcases List.mem_map.1 hpk with ⟨r, hr, rfl⟩
    exact List.mem_map.2 ⟨r, hr, rfl⟩
  have hinv1 := mentionsPhase_inv papers _ hph _ hinv0
  obtain ⟨⟨cn, hnodes1, hcn⟩, hedges1⟩ := hinv1
  have h0 : countPair
      (mentionsPhase
        (papers.map (fun r => (r.paper_id, extract (paperText chunks r.paper_id))))
        (papers.foldl (fun g r => addNode g r.paper_id ⟨some r.title, some "paper"⟩)
          emptyGraph))
      p.paper_id q.paper_id = 0 :=
    countPair_zero_of_conceptish_second hedges1 ha_nc hb_nc
  have hlookp : phraseLookup
      (papers.map (fun r => (r.paper_id, extract (paperText chunks r.paper_id))))
      p.paper_id = extract (paperText chunks p.paper_id) :=
    phraseLookup_map (fun pid => extract (paperText chunks pid)) papers p hnd hp_mem
  have hlookq : phraseLookup
      (papers.map (fun r => (r.paper_id, extract (paperText chunks r.paper_id))))
      q.paper_id = extract (paperText chunks q.paper_id) :=
    phraseLookup_map (fun pid => extract (paperText chunks pid)) papers q hnd hq_mem
  have hstate : edgeState (buildGraph extract papers chunks) p.paper_id q.paper_id =
      (if interSize (extract (paperText chunks p.paper_id))
          (extract (paperText chunks q.paper_id)) = 0
        then (0, 0, none)
        else (1, (interSize (extract (paperText chunks p.paper_id))
            (extract (paperText chunks q.paper_id)) : Rat), some "related")) := by
    have hit := edgeState_relatedPhase_hit
      (papers.map (fun r => (r.paper_id, extract (paperText chunks r.paper_id))))
      pre p mid q post _ (hsplit ▸ hnd) h0
    rw [hlookp, hlookq] at hit
    rw [← hsplit] at hit
    rw [hG]
    exact hit
  have hHasNodes : ∀ x ∈ papers,
      hasNode (mentionsPhase
        (papers.map (fun r => (r.paper_id, extract (paperText chunks r.paper_id))))
        (papers.foldl (fun g r => addNode g r.paper_id ⟨some r.title, some "paper"⟩)
          emptyGraph)) x.paper_id = true := by
    intro x hx
    rw [hasNode_iff_mem_keys, hnodes1, List.map_append, List.map_map]
    exact List.mem_append_left _ (List.mem_map.2 ⟨x, hx, rfl⟩)
  have hGnodes : (buildGraph extract papers chunks).nodes =
      (papers.map (fun r => (r.paper_id, (⟨some r.title, some "paper"⟩ : NodeData)))) ++ cn := by
    rw [hG, relatedPhase_nodes _ papers _ hHasNodes]
    exact hnodes1
  have hfe : ∀ e ∈ (buildGraph extract papers chunks).edges,
      FinalEdge (papers.map (·.paper_id)) e := by
    rw [hG]
    refine relatedPhase_finalEdge _ papers _ (fun x hx => List.mem_map.2 ⟨x, hx, rfl⟩) hnd ?_
    intro e he
    exact Or.inl (hedges1 e he)
  constructor
  · intro h0I
    have hcount := congrArg (fun st => st.1) hstate
    simpa [edgeState, h0I] using hcount
  · intro hne0
    have hcount := congrArg (fun st => st.1) hstate
    have hweight := congrArg (fun st => st.2.1) hstate
    have hrel := congrArg (fun st => st.2.2) hstate
    rw [if_neg hne0] at hcount hweight hrel
    refine ⟨by simpa [edgeState] using hcount, by simpa [edgeState] using hweight,
      by simpa [edgeState] using hrel, ?_, ?_⟩
    · -- node count of the induced subgraph
      show ((((buildGraph extract papers chunks).nodes.filter
          (fun pn => ([p.paper_id, q.paper_id]).contains pn.1)).map
            (fun pn => (⟨pn.1, pn.2.label, pn.2.type⟩ : SnapNode)))).length = 2
      rw [List.length_map, hGnodes, List.filter_append, List.length_append]
      have hcnfil : cn.filter (fun pn => ([p.paper_id, q.paper_id]).contains pn.1) = [] := by
        rw [List.filter_eq_nil_iff]
        intro x hx
        rcases hcn x hx with ⟨s, hs⟩
        have h1 : x.1 ≠ p.paper_id := fun hc => ha_nc s (hc.symm.trans hs)
        have h2 : x.1 ≠ q.paper_id := fun hc => hb_nc s (hc.symm.trans hs)
        simp [contains_pair, h1, h2]
      have hpfil : ((papers.map
          (fun r => (r.paper_id, (⟨some r.title, some "paper"⟩ : NodeData)))).filter
            (fun pn => ([p.paper_id, q.paper_id]).contains pn.1)).length = 2 := by
        rw [← List.countP_eq_length_filter, List.countP_map]
        have hc2 := countP_pair_eq_two (l := papers.map (·.paper_id)) hnd hamem hbmem hab
        rw [List.countP_map] at hc2
        exact hc2
      rw [hcnfil, hpfil]
      rfl
    · -- edge count of the induced subgraph
      show ((((buildGraph extract papers chunks).edges.filter
          (fun e => ([p.paper_id, q.paper_id]).contains e.1 &&
            ([p.paper_id, q.paper_id]).contains e.2.1)).map
            (fun e => (⟨e.1, e.2.1, e.2.2.relation, some e.2.2.weight⟩ : SnapEdge)))).length = 1
      rw [List.length_map]
      have hfiltc : ∀ e ∈ (buildGraph extract papers chunks).edges,
          (([p.paper_id, q.paper_id]).contains e.1 &&
            ([p.paper_id, q.paper_id]).contains e.2.1) =
            pairMatches e.1 e.2.1 p.paper_id q.paper_id := by
        intro e he
        rcases hfe e he with ⟨h1, s, hs⟩ | ⟨h1, h2, hne⟩
        · have hca : e.2.1 ≠ p.paper_id := fun hc => ha_nc s (hc.symm.trans hs)
          have hcb : e.2.1 ≠ q.paper_id := fun hc => hb_nc s (hc.symm.trans hs)
          simp [contains_pair, pairMatches, hca, hcb]
        · exact contains_pair_and_eq_pairMatches hab e.1 e.2.1 hne
      calc ((buildGraph extract papers chunks).edges.filter
            (fun e => ([p.paper_id, q.paper_id]).contains e.1 &&
              ([p.paper_id, q.paper_id]).contains e.2.1)).length
          = ((buildGraph extract papers chunks).edges.filter
              (fun e => pairMatches e.1 e.2.1 p.paper_id q.paper_id)).length := by
            rw [List.filter_congr hfiltc]
        _ = countPair (buildGraph extract papers chunks) p.paper_id q.paper_id := rfl
        _ = 1 := by simpa [edgeState] using hcount

/-- Keyphrase extractor used to instantiate claim C7: papers A and B
share the keyphrase `"transformer"`. -/
def extractT : String → List String := fun s =>
  if s = "ta" then ["transformer", "alpha"]
  else if s = "tb" then ["transformer", "beta"]
  else []

/-- The two-paper corpus used to instantiate claim C7. -/
def papersT : List Paper := [⟨"A", "Paper A"⟩, ⟨"B", "Paper B"⟩]

/-- The chunks of the two-paper corpus used to instantiate claim C7. -/
def chunksT : List Chunk := [⟨"A", "Paper A", "A_0", "ta"⟩, ⟨"B", "Paper B", "B_0", "tb"⟩]

/-- Witness for claim C7 at a concrete input: papers A and B share one
keyphrase, so the built graph has exactly one `related` A–B edge of
weight 1, and the induced subgraph over `[A, B]` has 2 nodes and 1
edge. -/
theorem claim_C7_related_edges_witness :
    countPair (buildGraph extractT papersT chunksT) "A" "B" = 1 ∧
    weightOf (buildGraph extractT papersT chunksT) "A" "B" =
      ((interSize (extractT (paperText chunksT "A")) (extractT (paperText chunksT "B"))) :
        Rat) ∧
    relationOf (buildGraph extractT papersT chunksT) "A" "B" = some "related" ∧
    (subgraph_for_path (buildGraph extractT papersT chunksT) ["A", "B"]).nodes.length = 2 ∧
    (subgraph_for_path (buildGraph extractT papersT chunksT) ["A", "B"]).edges.length = 1 :=
  (claim_C7_related_edges extractT papersT chunksT [] ⟨"A", "Paper A"⟩ [] ⟨"B", "Paper B"⟩ []
      rfl (by decide)
      (by intro r hr; fin_cases hr <;> exact not_concept_id (by decide))).2
    (by decide)

/-- Claim C10: once an edge exists on an unordered pair, any later
`_add_edge` call — with any relation argument and touching any pair —
leaves the stored relation of that edge unchanged; only the weight is
ever updated, so the relation is fixed at first insertion. -/
theorem claim_C10_relation_immutable :
    ∀ (g : Graph) (s t rel : String) (w : Rat) (a b : String),
      hasEdge g a b = true →
      relationOf (add_edge g s t rel w) a b = relationOf g a b := by
  intro g s t rel w a b hab
  by_cases hpm : pairMatches s t a b = true
  · have hst : hasEdge g s t = true := by rw [hasEdge_eqv hpm]; exact hab
    have hd := edgeData_add_edge_same g s t rel w
    rw [if_pos hst] at hd
    rw [← relationOf_eqv hpm, ← relationOf_eqv (g := g) hpm]
    unfold relationOf
    rw [hd]
    cases edgeData g s t <;> rfl
  · rw [Bool.not_eq_true] at hpm
    unfold relationOf
    rw [edgeData_add_edge_other rel w hpm]

/-- Witness for claim C10 at a concrete input: merging with relation
`"s"` onto the existing `("a","b")` edge keeps relation `"r"`. -/
theorem claim_C10_relation_immutable_witness :
    relationOf (add_edge (add_edge emptyGraph "a" "b" "r" 1) "b" "a" "s" 2) "a" "b" =
      relationOf (add_edge emptyGraph "a" "b" "r" 1) "a" "b" :=
  claim_C10_relation_immutable (add_edge emptyGraph "a" "b" "r" 1) "b" "a" "s" 2 "a" "b"
    (by decide)

end PaperLink
